import Mathlib

/-!
# Verification of the MT5 webhook server core (server.py)

Shallow embedding of the core of `server.py`:

* `loads` / `dumps` model Python's `json.loads` and
  `json.dumps(·, ensure_ascii := False, indent := 2)`.  JSON numbers are kept
  as their decimal lexeme text (Python's binary floating point is not
  modelled; the lexeme representation is exact on all decimal literals).
  Python's `json` also accepts the tokens `NaN`, `Infinity`, `-Infinity`;
  these are modelled as number lexemes.  Error messages are abstracted to
  short fixed strings; only success/failure and the parsed value matter
  to the claims.  Object members are kept as an association list in parse
  order (Python's `dict` would deduplicate; no claim involves duplicate
  keys).  `\uXXXX` escapes are decoded, including surrogate pairs; lone
  surrogates (which Lean's `Char` cannot represent) are rejected.
* `dt_sub`, `comma_sub`, `nan_sub`, `inf_sub`, `neg_inf_sub` model the five
  `re.sub` calls of `_try_parse_mt5_json`, with Python's leftmost scan,
  greedy/backtracking semantics of the concrete patterns, and `\b` word
  boundaries (`\w`, `\s`, `\d` are modelled on their ASCII plus common
  Latin-1 members; exotic Unicode word/space/digit characters are not
  exercised by any claim).
* `utf8_decode_ignore` models `bytes.decode("utf-8", "ignore")` with
  CPython's maximal-subpart error boundaries; `utf8_decode_replace` is the
  `errors="replace"` variant, used to compare against the spec's wording.
* The file system is a map from path to optional contents; `write_result_file`
  is the operation list of `_write_result_file` (temp write, then replace),
  `get_last_result` and `webhook_from_mt5` model the two handlers.  A raised
  I/O exception during the persist step is modelled by `Except`: the
  source has no try/except around the `await`, so the error propagates.
-/

namespace Server

/-! ## JSON values (Python objects produced by `json.loads`) -/

mutual

inductive Json where
  | null : Json
  | bool (b : Bool) : Json
  | num (lex : String) : Json
  | str (s : String) : Json
  | arr (xs : JsonList) : Json
  | obj (kvs : JsonMembers) : Json

inductive JsonList where
  | nil : JsonList
  | cons (hd : Json) (tl : JsonList) : JsonList

inductive JsonMembers where
  | nil : JsonMembers
  | cons (k : String) (v : Json) (tl : JsonMembers) : JsonMembers

end

deriving instance DecidableEq for Json, JsonList, JsonMembers

deriving instance DecidableEq for Except

/-! ## The strict parser: model of Python `json.loads` -/

/-- JSON whitespace as in Python's `json` module: space, tab, newline, CR. -/
def isJsonWs (c : Char) : Bool :=
  c = ' ' || c = '\t' || c = '\n' || c = '\r'

def skipWs (cs : List Char) : List Char :=
  cs.dropWhile isJsonWs

def isDigitC (c : Char) : Bool :=
  '0' ≤ c && c ≤ '9'

def isDigit19 (c : Char) : Bool :=
  '1' ≤ c && c ≤ '9'

def hexVal (c : Char) : Option Nat :=
  if '0' ≤ c ∧ c ≤ '9' then some (c.toNat - '0'.toNat)
  else if 'a' ≤ c ∧ c ≤ 'f' then some (c.toNat - 'a'.toNat + 10)
  else if 'A' ≤ c ∧ c ≤ 'F' then some (c.toNat - 'A'.toNat + 10)
  else none

/-- Decode a one-character string escape (everything except `\u`). -/
def parseEscSimple (c : Char) : Option Char :=
  if c = '"' then some '"'
  else if c = '\\' then some '\\'
  else if c = '/' then some '/'
  else if c = 'b' then some '\x08'
  else if c = 'f' then some '\x0c'
  else if c = 'n' then some '\n'
  else if c = 'r' then some '\r'
  else if c = 't' then some '\t'
  else none

/-- Four hex digits, read as a number. -/
def parseHex4 : List Char → Option (Nat × List Char)
  | h1 :: h2 :: h3 :: h4 :: rest =>
    match hexVal h1, hexVal h2, hexVal h3, hexVal h4 with
    | some a, some b, some c, some d => some ((((a * 16 + b) * 16 + c) * 16 + d), rest)
    | _, _, _, _ => none
  | _ => none

/-- Decode a `\uXXXX` escape body (the part after `\u`), handling a
surrogate pair; a lone surrogate is rejected. -/
def parseUEsc (cs : List Char) : Option (Char × List Char) :=
  match parseHex4 cs with
  | none => none
  | some (x, rest3) =>
    if 0xD800 ≤ x ∧ x ≤ 0xDBFF then
      match rest3 with
      | b1 :: b2 :: rest3b =>
        if b1 = '\\' ∧ b2 = 'u' then
          match parseHex4 rest3b with
          | none => none
          | some (y, rest4) =>
            if 0xDC00 ≤ y ∧ y ≤ 0xDFFF then
              some (Char.ofNat (0x10000 + (x - 0xD800) * 0x400 + (y - 0xDC00)), rest4)
            else none
        else none
      | _ => none
    else if 0xDC00 ≤ x ∧ x ≤ 0xDFFF then none
    else some (Char.ofNat x, rest3)

/-- Scan a JSON string body (the part after the opening quote), in strict
mode: unescaped control characters below 0x20 are rejected.  `\uXXXX`
escapes handle surrogate pairs; a lone surrogate is rejected (Python
would keep it, but Lean's `Char` holds only Unicode scalar values — no
claim depends on lone surrogates).  Returns the decoded characters and
the input after the closing quote. -/
def parseStrCharsF : Nat → List Char → Option (List Char × List Char)
  | _, [] => none
  | 0, _ => none
  | Nat.succ f, c :: rest =>
    if c = '"' then some ([], rest)
    else if c = '\\' then
      match rest with
      | [] => none
      | e :: rest2 =>
        if e = 'u' then
          match parseUEsc rest2 with
          | none => none
          | some (ch, rest3) =>
            match parseStrCharsF f rest3 with
            | none => none
            | some (l, r2) => some (ch :: l, r2)
        else
          match parseEscSimple e with
          | none => none
          | some ch =>
            match parseStrCharsF f rest2 with
            | none => none
            | some (l, r2) => some (ch :: l, r2)
    else if c.toNat < 0x20 then none
    else
      match parseStrCharsF f rest with
      | none => none
      | some (l, r2) => some (c :: l, r2)

def parseStrChars (cs : List Char) : Option (List Char × List Char) :=
  parseStrCharsF cs.length cs

/-- Does `cs` begin with the character `c`? -/
def headIs (cs : List Char) (c : Char) : Bool :=
  match cs with
  | d :: _ => d = c
  | [] => false

/-- Integer part of a JSON number: `0` or `[1-9][0-9]*`. -/
def parseIntPart : List Char → Option (List Char × List Char)
  | [] => none
  | c :: rest =>
    if c = '0' then some (['0'], rest)
    else if isDigit19 c then
      some (c :: rest.takeWhile isDigitC, rest.dropWhile isDigitC)
    else none

/-- Optional fraction part `\.[0-9]+` (empty if absent). -/
def parseFracPart (cs : List Char) : List Char × List Char :=
  match cs with
  | c1 :: c2 :: rest =>
    if c1 = '.' ∧ isDigitC c2 then
      ('.' :: c2 :: rest.takeWhile isDigitC, rest.dropWhile isDigitC)
    else ([], cs)
  | _ => ([], cs)

/-- After `e`/`E`: an optional sign then one or more digits (`none` if the
shape is not there, in which case the exponent group does not match). -/
def parseExpTail : List Char → Option (List Char × List Char)
  | s :: rest2 =>
    if s = '+' ∨ s = '-' then
      match rest2 with
      | d :: rest3 =>
        if isDigitC d then
          some (s :: d :: rest3.takeWhile isDigitC, rest3.dropWhile isDigitC)
        else none
      | [] => none
    else if isDigitC s then
      some (s :: rest2.takeWhile isDigitC, rest2.dropWhile isDigitC)
    else none
  | [] => none

/-- Optional exponent part `[eE][-+]?[0-9]+` (empty if absent). -/
def parseExpPart (cs : List Char) : List Char × List Char :=
  match cs with
  | e :: rest =>
    if e = 'e' ∨ e = 'E' then
      match parseExpTail rest with
      | some (t, r) => (e :: t, r)
      | none => ([], cs)
    else ([], cs)
  | [] => ([], cs)

/-- The integer/fraction/exponent tail of a number token
`-?(0|[1-9][0-9]*)(\.[0-9]+)?([eE][-+]?[0-9]+)?`, after the optional
sign. -/
def parseNumTail (cs : List Char) : Option (List Char × List Char) :=
  match parseIntPart cs with
  | none => none
  | some (ip, cs2) =>
    let fp := parseFracPart cs2
    let ep := parseExpPart fp.2
    some (ip ++ fp.1 ++ ep.1, ep.2)

def parseNumber (cs : List Char) : Option (List Char × List Char) :=
  if headIs cs '-' = true then
    match parseNumTail cs.tail with
    | none => none
    | some (t, r) => some ('-' :: t, r)
  else parseNumTail cs

/- One scanning step of Python's `json` value scanner.  The fuel argument
only bounds nesting depth; `loads` passes `length + 1`, which is always
sufficient (each unit of fuel spent corresponds to at least one consumed
character on any successful parse). -/
mutual

def parseValue : Nat → List Char → Option (Json × List Char)
  | 0, _ => none
  | Nat.succ f, cs =>
    if headIs cs '"' then
      match parseStrChars cs.tail with
      | none => none
      | some (l, r) => some (.str (String.mk l), r)
    else if headIs cs '{' then
      let cs2 := skipWs cs.tail
      if headIs cs2 '}' then some (.obj .nil, cs2.tail)
      else
        match parseMembers f cs2 with
        | none => none
        | some (kvs, r) => some (.obj kvs, r)
    else if headIs cs '[' then
      let cs2 := skipWs cs.tail
      if headIs cs2 ']' then some (.arr .nil, cs2.tail)
      else
        match parseElems f cs2 with
        | none => none
        | some (xs, r) => some (.arr xs, r)
    else if cs.take 4 = ['n', 'u', 'l', 'l'] then some (.null, cs.drop 4)
    else if cs.take 4 = ['t', 'r', 'u', 'e'] then some (.bool true, cs.drop 4)
    else if cs.take 5 = ['f', 'a', 'l', 's', 'e'] then some (.bool false, cs.drop 5)
    else
      match parseNumber cs with
      | some (lex, rest) => some (.num (String.mk lex), rest)
      | none =>
        if cs.take 3 = ['N', 'a', 'N'] then some (.num "NaN", cs.drop 3)
        else if cs.take 8 = ['I', 'n', 'f', 'i', 'n', 'i', 't', 'y'] then
          some (.num "Infinity", cs.drop 8)
        else if cs.take 9 = ['-', 'I', 'n', 'f', 'i', 'n', 'i', 't', 'y'] then
          some (.num "-Infinity", cs.drop 9)
        else none

def parseMembers : Nat → List Char → Option (JsonMembers × List Char)
  | 0, _ => none
  | Nat.succ f, cs =>
    if headIs cs '"' then
      match parseStrChars cs.tail with
      | none => none
      | some (kl, r1) =>
        let r2 := skipWs r1
        if headIs r2 ':' then
          match parseValue f (skipWs r2.tail) with
          | none => none
          | some (v, r4) =>
            let r5 := skipWs r4
            if headIs r5 ',' then
              match parseMembers f (skipWs r5.tail) with
              | none => none
              | some (tl, r7) => some (.cons (String.mk kl) v tl, r7)
            else if headIs r5 '}' then some (.cons (String.mk kl) v .nil, r5.tail)
            else none
        else none
    else none

def parseElems : Nat → List Char → Option (JsonList × List Char)
  | 0, _ => none
  | Nat.succ f, cs =>
    match parseValue f cs with
    | none => none
    | some (v, r1) =>
      let r2 := skipWs r1
      if headIs r2 ',' then
        match parseElems f (skipWs r2.tail) with
        | none => none
        | some (tl, r4) => some (.cons v tl, r4)
      else if headIs r2 ']' then some (.cons v .nil, r2.tail)
      else none

end

/-- Model of Python `json.loads`: skip leading whitespace, scan one value,
skip trailing whitespace, and reject leftover input. -/
def loads (s : String) : Except String Json :=
  match parseValue (s.length + 1) (skipWs s.data) with
  | none => .error "Expecting value"
  | some (v, rest) =>
    if skipWs rest = [] then .ok v else .error "Extra data"

/-! ## The encoder: model of `json.dumps(·, ensure_ascii=False, indent=2)` -/

def hexDigit (n : Nat) : Char :=
  if n < 10 then Char.ofNat ('0'.toNat + n) else Char.ofNat ('a'.toNat + n - 10)

/-- Escape one character as `json.dumps` with `ensure_ascii=False` does:
only the quote, the backslash and control characters below 0x20 are
escaped. -/
def escChar (c : Char) : List Char :=
  if c = '"' then ['\\', '"']
  else if c = '\\' then ['\\', '\\']
  else if c = '\x08' then ['\\', 'b']
  else if c = '\t' then ['\\', 't']
  else if c = '\n' then ['\\', 'n']
  else if c = '\x0c' then ['\\', 'f']
  else if c = '\r' then ['\\', 'r']
  else if c.toNat < 0x20 then
    ['\\', 'u', '0', '0', hexDigit (c.toNat / 16), hexDigit (c.toNat % 16)]
  else [c]

def escList : List Char → List Char
  | [] => []
  | c :: cs => escChar c ++ escList cs

/-- The indentation prefix at nesting depth `d` (two spaces per level). -/
def ind (d : Nat) : List Char :=
  List.replicate (2 * d) ' '

mutual

def encJson : Nat → Json → List Char
  | _, .null => ['n', 'u', 'l', 'l']
  | _, .bool true => ['t', 'r', 'u', 'e']
  | _, .bool false => ['f', 'a', 'l', 's', 'e']
  | _, .num lex => lex.data
  | _, .str s => ('"' :: escList s.data) ++ ['"']
  | _, .arr .nil => ['[', ']']
  | d, .arr (.cons x tl) =>
    ('[' :: '\n' :: ind (d + 1)) ++ encItems (d + 1) (JsonList.cons x tl) ++
      ('\n' :: ind d) ++ [']']
  | _, .obj .nil => ['{', '}']
  | d, .obj (.cons k v tl) =>
    ('{' :: '\n' :: ind (d + 1)) ++ encMembers (d + 1) (JsonMembers.cons k v tl) ++
      ('\n' :: ind d) ++ ['}']

def encItems : Nat → JsonList → List Char
  | _, .nil => []
  | d, .cons x .nil => encJson d x
  | d, .cons x (JsonList.cons y tl) =>
    encJson d x ++ (',' :: '\n' :: ind d) ++ encItems d (JsonList.cons y tl)

def encMembers : Nat → JsonMembers → List Char
  | _, .nil => []
  | d, .cons k v .nil =>
    ('"' :: escList k.data) ++ ('"' :: ':' :: ' ' :: encJson d v)
  | d, .cons k v (JsonMembers.cons k2 v2 tl) =>
    ('"' :: escList k.data) ++ ('"' :: ':' :: ' ' :: encJson d v) ++
      (',' :: '\n' :: ind d) ++ encMembers d (JsonMembers.cons k2 v2 tl)

end

def dumps (v : Json) : String :=
  String.mk (encJson 0 v)

/-! ## The repair pass: models of the five `re.sub` calls -/

/-- Python `\s` (the members below 0x100; more exotic Unicode space
characters are not exercised by anything in the repository). -/
def isPySpace (c : Char) : Bool :=
  c = ' ' || c = '\t' || c = '\n' || c = '\r' || c = '\x0c' || c = '\x0b' ||
    c = '\x1c' || c = '\x1d' || c = '\x1e' || c = '\x1f' || c = '\x85' || c = '\xa0'

/-- Python `\w` on its ASCII members (letters, digits, underscore). -/
def isWordChar (c : Char) : Bool :=
  c.isAlphanum || c = '_'

/-- Is the first character of `cs` a word character (`false` at end of
input)?  Used for `\b` word-boundary tests. -/
def headWord (cs : List Char) : Bool :=
  match cs with
  | [] => false
  | c :: _ => isWordChar c

/-- Word-ness of an optional preceding character (start of input counts as
a non-word position). -/
def prevWord (p : Option Char) : Bool :=
  match p with
  | none => false
  | some c => isWordChar c

/-- Attempt, at a position just after a `:`, the tail of the pattern
`(:\s*)(\d{4}\.\d{2}\.\d{2}(?:\s+\d{2}:\d{2}:\d{2})?)\b`: greedy `\s*`,
then the date shape, then (preferring presence, with regex backtracking)
the optional time-of-day group, then the `\b` check.  Returns the
whitespace run, the matched date(-time) token and the rest. -/
def dtMatch (cs : List Char) : Option (List Char × List Char × List Char) :=
  let ws := cs.takeWhile isPySpace
  let r1 := cs.dropWhile isPySpace
  match r1 with
  | a :: b :: c :: d :: '.' :: e :: f :: '.' :: g :: h :: r2 =>
    if isDigitC a && isDigitC b && isDigitC c && isDigitC d &&
        isDigitC e && isDigitC f && isDigitC g && isDigitC h then
      let date : List Char := [a, b, c, d, '.', e, f, '.', g, h]
      let wsT := r2.takeWhile isPySpace
      let r3 := r2.dropWhile isPySpace
      let dateOnly : Option (List Char × List Char × List Char) :=
        if headWord r2 then none else some (ws, date, r2)
      match r3 with
      | p :: q :: ':' :: s :: t :: ':' :: u :: v :: r4 =>
        if wsT ≠ [] && isDigitC p && isDigitC q && isDigitC s &&
            isDigitC t && isDigitC u && isDigitC v && !headWord r4 then
          some (ws, date ++ wsT ++ [p, q, ':', s, t, ':', u, v], r4)
        else dateOnly
      | _ => dateOnly
    else none
  | _ => none

/-- Scanner for the datetime pattern; the fuel is the remaining input
length, which always suffices because every scanning step consumes at
least one character. -/
def dtSubF : Nat → List Char → List Char
  | _, [] => []
  | 0, cs => cs
  | Nat.succ f, ':' :: rest =>
    (match dtMatch rest with
     | some (ws, tok, r) => (':' :: ws) ++ ('"' :: tok) ++ ('"' :: dtSubF f r)
     | none => ':' :: dtSubF f rest)
  | Nat.succ f, c :: rest => c :: dtSubF f rest

/-- `re.sub` with pattern `(:\s*)(\d{4}\.\d{2}\.\d{2}(?:\s+\d{2}:\d{2}:\d{2})?)\b`
and replacement `\1"\2"`: left-to-right scan, wrapping unquoted MT5
datetime tokens that follow a colon in double quotes. -/
def dtSub (cs : List Char) : List Char :=
  dtSubF cs.length cs

/-- One fueled scanning pass for the trailing-comma pattern. -/
def commaSubF : Nat → List Char → List Char
  | _, [] => []
  | 0, cs => cs
  | Nat.succ f, ',' :: rest =>
    (match rest.dropWhile isPySpace with
     | b :: rest2 =>
       if b = '}' ∨ b = ']' then b :: commaSubF f rest2
       else ',' :: commaSubF f rest
     | [] => ',' :: commaSubF f rest)
  | Nat.succ f, c :: rest => c :: commaSubF f rest

/-- `re.sub(r',\s*([}\]])', r'\1', ·)`: remove a comma that is followed,
up to whitespace, by a closing brace or bracket (the whitespace is part of
the match, hence also removed).  The fuel always suffices: each step
consumes at least one character. -/
def commaSub (cs : List Char) : List Char :=
  commaSubF cs.length cs

/-- `re.sub(r'\bNaN\b', 'null', ·)`.  `prev` is the character preceding the
scan position (`none` at the start), used for the leading `\b` test; after
a replacement the scan resumes past the matched token of the original
text. -/
def nanSub (prev : Option Char) (cs : List Char) : List Char :=
  match cs with
  | 'N' :: 'a' :: 'N' :: rest =>
    if !prevWord prev && !headWord rest then
      'n' :: 'u' :: 'l' :: 'l' :: nanSub (some 'N') rest
    else 'N' :: nanSub (some 'N') ('a' :: 'N' :: rest)
  | c :: rest => c :: nanSub (some c) rest
  | [] => []

/-- `re.sub(r'\bInfinity\b', 'null', ·)`. -/
def infSub (prev : Option Char) (cs : List Char) : List Char :=
  match cs with
  | 'I' :: 'n' :: 'f' :: 'i' :: 'n' :: 'i' :: 't' :: 'y' :: rest =>
    if !prevWord prev && !headWord rest then
      'n' :: 'u' :: 'l' :: 'l' :: infSub (some 'y') rest
    else 'I' :: infSub (some 'I') ('n' :: 'f' :: 'i' :: 'n' :: 'i' :: 't' :: 'y' :: rest)
  | c :: rest => c :: infSub (some c) rest
  | [] => []

/-- `re.sub(r'\b-Infinity\b', 'null', ·)`.  The `\b` before the non-word
character `-` holds only when the preceding character is a word
character. -/
def negInfSub (prev : Option Char) (cs : List Char) : List Char :=
  match cs with
  | '-' :: 'I' :: 'n' :: 'f' :: 'i' :: 'n' :: 'i' :: 't' :: 'y' :: rest =>
    if prevWord prev && !headWord rest then
      'n' :: 'u' :: 'l' :: 'l' :: negInfSub (some 'y') rest
    else
      '-' :: negInfSub (some '-')
        ('I' :: 'n' :: 'f' :: 'i' :: 'n' :: 'i' :: 't' :: 'y' :: rest)
  | c :: rest => c :: negInfSub (some c) rest
  | [] => []

/-- The repair pipeline of `_try_parse_mt5_json`, in source order:
datetime quoting, trailing-comma removal, then `NaN`, `Infinity`,
`-Infinity` substitution. -/
def applyRepairs (s : String) : String :=
  String.mk (negInfSub none (infSub none (nanSub none (commaSub (dtSub s.data)))))

/-- Python's `json.loads` returns the parsed object; the JSON literal
`null` comes back as the Python value `None`, which is indistinguishable
from the failure sentinel used by `_try_parse_mt5_json`'s callers. -/
def pyNone (v : Json) : Option Json :=
  if v = .null then none else some v

/-- Python `str(...)` on the optional error message (used in the webhook's
response body; `str(None)` is the text `None`). -/
def pyStr (o : Option String) : String :=
  match o with
  | none => "None"
  | some s => s

/-- Model of `_try_parse_mt5_json`: strict parse first; on failure apply
the repairs and parse again; on a second failure report both error
messages. -/
def try_parse_mt5_json (raw_text : String) :
    Option Json × Option String × Option String :=
  match loads raw_text with
  | .ok v => (pyNone v, none, none)
  | .error e1 =>
    let repaired := applyRepairs raw_text
    match loads repaired with
    | .ok v => (pyNone v, some repaired, none)
    | .error e2 => (none, some repaired, some (e1 ++ " | after_repair: " ++ e2))

/-! ## UTF-8 decoding: model of `bytes.decode("utf-8", errors)` -/

def utf8Cont (b : Nat) : Bool :=
  0x80 ≤ b && b ≤ 0xBF

/-- What the error handler contributes for one ill-formed subsequence:
`errors="replace"` emits U+FFFD, `errors="ignore"` emits nothing. -/
def utf8Err (repl : Bool) (k : List Char) : List Char :=
  if repl then '\uFFFD' :: k else k

/-- UTF-8 decoder with CPython's maximal-subpart error boundaries: each
ill-formed subsequence (a maximal valid prefix of a multi-byte sequence,
or a single invalid byte) triggers the error handler once and decoding
resumes at the following byte. -/
def utf8DecodeAuxF : Nat → Bool → List Nat → List Char
  | _, _, [] => []
  | 0, _, _ :: _ => []
  | Nat.succ f, repl, b :: bs =>
    if b < 0x80 then Char.ofNat b :: utf8DecodeAuxF f repl bs
    else if b < 0xC2 then utf8Err repl (utf8DecodeAuxF f repl bs)
    else if b ≤ 0xDF then
      match hbs : bs with
      | b2 :: bs2 =>
        if utf8Cont b2 then
          Char.ofNat ((b - 0xC0) * 64 + (b2 - 0x80)) :: utf8DecodeAuxF f repl bs2
        else utf8Err repl (utf8DecodeAuxF f repl bs)
      | [] => utf8Err repl []
    else if b ≤ 0xEF then
      match hbs : bs with
      | b2 :: bs2 =>
        if (if b = 0xE0 then decide (0xA0 ≤ b2) && decide (b2 ≤ 0xBF)
            else if b = 0xED then decide (0x80 ≤ b2) && decide (b2 ≤ 0x9F)
            else utf8Cont b2) then
          match hbs2 : bs2 with
          | b3 :: bs3 =>
            if utf8Cont b3 then
              Char.ofNat ((b - 0xE0) * 4096 + (b2 - 0x80) * 64 + (b3 - 0x80)) ::
                utf8DecodeAuxF f repl bs3
            else utf8Err repl (utf8DecodeAuxF f repl bs2)
          | [] => utf8Err repl []
        else utf8Err repl (utf8DecodeAuxF f repl bs)
      | [] => utf8Err repl []
    else if b ≤ 0xF4 then
      match hbs : bs with
      | b2 :: bs2 =>
        if (if b = 0xF0 then decide (0x90 ≤ b2) && decide (b2 ≤ 0xBF)
            else if b = 0xF4 then decide (0x80 ≤ b2) && decide (b2 ≤ 0x8F)
            else utf8Cont b2) then
          match hbs2 : bs2 with
          | b3 :: bs3 =>
            if utf8Cont b3 then
              match hbs3 : bs3 with
              | b4 :: bs4 =>
                if utf8Cont b4 then
                  Char.ofNat ((b - 0xF0) * 0x40000 + (b2 - 0x80) * 4096 +
                      (b3 - 0x80) * 64 + (b4 - 0x80)) :: utf8DecodeAuxF f repl bs4
                else utf8Err repl (utf8DecodeAuxF f repl bs3)
              | [] => utf8Err repl []
            else utf8Err repl (utf8DecodeAuxF f repl bs2)
          | [] => utf8Err repl []
        else utf8Err repl (utf8DecodeAuxF f repl bs)
      | [] => utf8Err repl []
    else utf8Err repl (utf8DecodeAuxF f repl bs)

/-- `bytes.decode("utf-8", ...)` scans left to right; each step consumes at
least one byte, so the byte count is enough fuel. -/
def utf8DecodeAux (repl : Bool) (l : List Nat) : List Char :=
  utf8DecodeAuxF l.length repl l

/-- Model of `raw_body.decode("utf-8", "ignore")` (line 71 of the source):
ill-formed subsequences are dropped. -/
def utf8_decode_ignore (bs : List Nat) : String :=
  String.mk (utf8DecodeAux false bs)

/-- Modelled from the spec: the decode step as the spec describes it,
"substituting a replacement marker for invalid byte sequences"
(`errors="replace"`).  Used only to compare the spec's wording against the
source's `errors="ignore"`. -/
def utf8_decode_replace (bs : List Nat) : String :=
  String.mk (utf8DecodeAux true bs)

/-- Standard UTF-8 encoding of one scalar value (used to state that valid
UTF-8 input decodes to its text). -/
def utf8EncodeChar (c : Char) : List Nat :=
  let n := c.toNat
  if n < 0x80 then [n]
  else if n < 0x800 then [0xC0 + n / 64, 0x80 + n % 64]
  else if n < 0x10000 then
    [0xE0 + n / 4096, 0x80 + (n / 64) % 64, 0x80 + n % 64]
  else
    [0xF0 + n / 0x40000, 0x80 + (n / 4096) % 64, 0x80 + (n / 64) % 64, 0x80 + n % 64]

def utf8Encode : List Char → List Nat
  | [] => []
  | c :: cs => utf8EncodeChar c ++ utf8Encode cs

/-! ## The durable snapshot store and the two handlers -/

/-- The observable file system: contents by path (`none` = no such file). -/
def Fs : Type :=
  String → Option String

/-- The canonical snapshot location (`Path(__file__).with_name("result.json")`;
the directory part plays no role in the model). -/
def result_path : String :=
  "result.json"

/-- `PurePath.with_suffix`: replace the part from the last dot on. -/
def withSuffix (p : String) (suf : String) : String :=
  match (p.data.reverse.dropWhile (fun c => c ≠ '.')) with
  | '.' :: stemRev => String.mk (stemRev.reverse ++ suf.data)
  | _ => String.mk (p.data ++ suf.data)

/-- `result_path.with_suffix(".json.tmp")`. -/
def tmp_path : String :=
  withSuffix result_path ".json.tmp"

/-- The primitive file operations `_write_sync` performs. -/
inductive FsOp where
  | writeText (path content : String)
  | replace (src dst : String)
deriving DecidableEq

def applyOp (fs : Fs) : FsOp → Fs
  | .writeText p c => fun q => if q = p then some c else fs q
  | .replace src dst =>
    fun q => if q = dst then fs src else if q = src then none else fs q

/-- The operation sequence of `_write_result_file`: serialize as indented
JSON, write the text to the temporary path, then replace the canonical
path with the temporary file. -/
def write_ops (data : Json) : List FsOp :=
  [.writeText tmp_path (dumps data), .replace tmp_path result_path]

def write_result_file (data : Json) (fs : Fs) : Fs :=
  (write_ops data).foldl applyOp fs

/-- A raised I/O error inside `_write_sync` propagates out of the `await`
(the source installs no handler), modelled by `Except`. -/
def write_result_file_exc (fails : Bool) (data : Json) (fs : Fs) :
    Except Unit Fs :=
  if fails then .error () else .ok (write_result_file data fs)

inductive RespBody where
  | okBody (received : Json)
  | invalidJson (error : String) (raw : String) (repaired : Option String)
  | notFound (detail : String)
  | invalidResultJson (detail : String)
  | resultData (data : Json)
deriving DecidableEq

structure Resp where
  status : Nat
  body : RespBody
deriving DecidableEq

/-- Model of the `GET /result` handler `get_last_result`. -/
def get_last_result (fs : Fs) : Resp :=
  match fs result_path with
  | none => ⟨404, .notFound "result.json does not exist yet"⟩
  | some raw =>
    match loads raw with
    | .error exc => ⟨500, .invalidResultJson exc⟩
    | .ok data => ⟨200, .resultData data⟩

/-- The `"repaired"` field of the invalid-json response body:
`repaired_text if repaired_text != raw_text else None` (a `None`
`repaired_text` also compares unequal to the string `raw_text`, and the
field is then `None` as well). -/
def repairedField (repaired : Option String) (raw_text : String) : Option String :=
  match repaired with
  | some s => if s = raw_text then none else some s
  | none => none

/-- Model of the `POST /webhook` handler `webhook_from_mt5`; `writeFails`
says whether the persist step raises an I/O error (in which case the
exception propagates — the source has no try/except around the await). -/
def webhook_from_mt5 (writeFails : Bool) (raw_body : List Nat) (fs : Fs) :
    Except Unit (Resp × Fs) :=
  let raw_text := utf8_decode_ignore raw_body
  let pr := try_parse_mt5_json raw_text
  match pr.1 with
  | none =>
    (write_result_file_exc writeFails (.obj .nil) fs).map fun fs2 =>
      (⟨400, .invalidJson (pyStr pr.2.2) raw_text (repairedField pr.2.1 raw_text)⟩, fs2)
  | some payload =>
    (write_result_file_exc writeFails payload fs).map fun fs2 =>
      (⟨200, .okBody payload⟩, fs2)

/-! ## Validity and fuel accounting for the write/read round trip -/

/-- Does a number lexeme reparse, in full, as exactly itself?  This is
precisely the shape accepted by the number token grammar (and excludes the
non-finite tokens `NaN`/`Infinity`/`-Infinity`, which are not valid
JSON). -/
def numLexOk (l : List Char) : Bool :=
  match parseNumber l with
  | some (lex, rest) => lex == l && rest == []
  | none => false

def keyList : JsonMembers → List String
  | .nil => []
  | .cons k _ tl => k :: keyList tl

/- A `Json` value is a faithful image of a Python object that is valid
JSON: number lexemes are grammatical number tokens and object keys are
distinct (Python dicts cannot hold duplicate keys). -/
mutual

def validJ : Json → Bool
  | .null => true
  | .bool _ => true
  | .num lex => numLexOk lex.data
  | .str _ => true
  | .arr xs => validL xs
  | .obj kvs => decide (keyList kvs).Nodup && validM kvs

def validL : JsonList → Bool
  | .nil => true
  | .cons x tl => validJ x && validL tl

def validM : JsonMembers → Bool
  | .nil => true
  | .cons _ v tl => validJ v && validM tl

end

/- Sufficient parser fuel for a value and for (non-empty) item/member
tails. -/
mutual

def fuelJ : Json → Nat
  | .null => 1
  | .bool _ => 1
  | .num _ => 1
  | .str _ => 1
  | .arr xs => 1 + fuelL xs
  | .obj kvs => 1 + fuelM kvs

def fuelL : JsonList → Nat
  | .nil => 1
  | .cons x tl => 1 + max (fuelJ x) (fuelL tl)

def fuelM : JsonMembers → Nat
  | .nil => 1
  | .cons _ v tl => 1 + max (fuelJ v) (fuelM tl)

end

/-- The head of `cs` (if any) does not satisfy `p`. -/
def headNot (p : Char → Bool) : List Char → Prop
  | [] => True
  | c :: _ => p c = false

/-- What may legally follow a serialized value inside `dumps` output:
nothing, a comma, or the newline before a closing bracket. -/
def delimOk : List Char → Prop
  | [] => True
  | c :: _ => c = ',' ∨ c = '\n'

/-- The first character of a serialized value: never whitespace and never
a closing bracket (used to show `skipWs` stops exactly at it and that the
empty-container branches are not taken). -/
def goodHead : List Char → Prop
  | [] => False
  | c :: _ => isJsonWs c = false ∧ c ≠ ']' ∧ c ≠ '}'

@[simp] theorem headIs_cons (c : Char) (l : List Char) (x : Char) :
    headIs (c :: l) x = decide (c = x) := rfl

@[simp] theorem headIs_nil (x : Char) : headIs [] x = false := rfl

@[simp] theorem headNot_nil (p : Char → Bool) : headNot p [] := trivial

@[simp] theorem headNot_cons (p : Char → Bool) (c : Char) (l : List Char) :
    headNot p (c :: l) ↔ p c = false := Iff.rfl

@[simp] theorem delimOk_nil : delimOk [] := trivial

@[simp] theorem delimOk_cons (c : Char) (l : List Char) :
    delimOk (c :: l) ↔ c = ',' ∨ c = '\n' := Iff.rfl

@[simp] theorem goodHead_cons (c : Char) (l : List Char) :
    goodHead (c :: l) ↔ isJsonWs c = false ∧ c ≠ ']' ∧ c ≠ '}' := Iff.rfl

theorem takeWhile_append_all {p : Char → Bool} (ds rest : List Char)
    (h1 : ∀ d ∈ ds, p d = true) (h2 : headNot p rest) :
    (ds ++ rest).takeWhile p = ds ∧ (ds ++ rest).dropWhile p = rest := by
  induction ds with
  | nil =>
    cases rest with
    | nil => exact ⟨rfl, rfl⟩
    | cons c t =>
      simp only [headNot] at h2
      simp [List.takeWhile_cons, List.dropWhile_cons, h2]
  | cons d ds ih =>
    have hd : p d = true := h1 d (by simp)
    have ih2 := ih (fun x hx => h1 x (by simp [hx]))
    simp [List.takeWhile_cons, List.dropWhile_cons, hd, ih2.1, ih2.2]

theorem skipWs_ws_append (a X : List Char)
    (ha : ∀ c ∈ a, isJsonWs c = true) (hX : headNot isJsonWs X) :
    skipWs (a ++ X) = X :=
  (takeWhile_append_all a X ha hX).2

theorem skipWs_not_ws (X : List Char) (hX : headNot isJsonWs X) :
    skipWs X = X := skipWs_ws_append [] X (by simp) hX

theorem ind_all_ws (d : Nat) : ∀ c ∈ ind d, isJsonWs c = true := by
  intro c hc
  have : c = ' ' := List.eq_of_mem_replicate hc
  simp [this, isJsonWs]

theorem goodHead_headNot {X : List Char} (h : goodHead X) :
    headNot isJsonWs X := by
  cases X with
  | nil => exact h.elim
  | cons c t => exact h.1

/-! ### Number-token lemmas -/

def IntPartP (ip : List Char) : Prop :=
  ip = ['0'] ∨ ∃ c ds, ip = c :: ds ∧ isDigit19 c = true ∧ ∀ d ∈ ds, isDigitC d = true

def FracPartP (fp : List Char) : Prop :=
  fp = [] ∨ ∃ d ds, fp = '.' :: d :: ds ∧ isDigitC d = true ∧ ∀ x ∈ ds, isDigitC x = true

def ExpPartP (ep : List Char) : Prop :=
  ep = [] ∨ ∃ e sg d ds, ep = e :: (sg ++ d :: ds) ∧ (e = 'e' ∨ e = 'E') ∧
    (sg = [] ∨ sg = ['+'] ∨ sg = ['-']) ∧ isDigitC d = true ∧ ∀ x ∈ ds, isDigitC x = true

/-- A list that cannot begin a fraction part. -/
def fracSafe : List Char → Prop
  | c1 :: c2 :: _ => ¬(c1 = '.' ∧ isDigitC c2 = true)
  | _ => True

theorem parseIntPart_sound {cs ip r : List Char}
    (h : parseIntPart cs = some (ip, r)) : cs = ip ++ r ∧ IntPartP ip := by
  cases cs with
  | nil => simp [parseIntPart] at h
  | cons c rest =>
    simp only [parseIntPart] at h
    split at h
    · rename_i hc
      obtain ⟨rfl, rfl⟩ := Prod.mk.injEq .. ▸ Option.some.injEq .. ▸ h
      subst hc
      exact ⟨rfl, Or.inl rfl⟩
    · split at h
      · rename_i hc
        obtain ⟨rfl, rfl⟩ := Prod.mk.injEq .. ▸ Option.some.injEq .. ▸ h
        refine ⟨by simp [List.takeWhile_append_dropWhile], Or.inr ⟨c, _, rfl, hc, ?_⟩⟩
        intro d hd
        exact List.mem_takeWhile_imp hd
      · exact absurd h (by simp)

theorem parseIntPart_ext {ip rest : List Char} (h : IntPartP ip)
    (hr : headNot isDigitC rest) : parseIntPart (ip ++ rest) = some (ip, rest) := by
  rcases h with rfl | ⟨c, ds, rfl, hc, hds⟩
  · simp [parseIntPart]
  · have hc0 : ¬(c = '0') := by
      intro h0
      subst h0
      simp [isDigit19] at hc
    have hta := takeWhile_append_all ds rest hds hr
    simp [parseIntPart, hc0, hc, hta.1, hta.2]

theorem parseFracPart_sound {cs fp r : List Char}
    (h : parseFracPart cs = (fp, r)) : cs = fp ++ r ∧ FracPartP fp := by
  match cs with
  | [] =>
    simp only [parseFracPart] at h
    obtain ⟨rfl, rfl⟩ := Prod.mk.injEq .. ▸ h
    exact ⟨rfl, Or.inl rfl⟩
  | [c] =>
    simp only [parseFracPart] at h
    obtain ⟨rfl, rfl⟩ := Prod.mk.injEq .. ▸ h
    exact ⟨rfl, Or.inl rfl⟩
  | c1 :: c2 :: rest =>
    simp only [parseFracPart] at h
    split at h
    · rename_i hcond
      obtain ⟨rfl, rfl⟩ := Prod.mk.injEq .. ▸ h
      obtain ⟨rfl, hd⟩ := hcond
      refine ⟨by simp [List.takeWhile_append_dropWhile], Or.inr ⟨c2, _, rfl, hd, ?_⟩⟩
      intro x hx
      exact List.mem_takeWhile_imp hx
    · obtain ⟨rfl, rfl⟩ := Prod.mk.injEq .. ▸ h
      exact ⟨rfl, Or.inl rfl⟩

theorem parseFracPart_ext {fp rest : List Char} (h : FracPartP fp)
    (h1 : fp = [] → fracSafe rest) (h2 : headNot isDigitC rest) :
    parseFracPart (fp ++ rest) = (fp, rest) := by
  rcases h with rfl | ⟨d, ds, rfl, hd, hds⟩
  · match rest, h1 rfl with
    | [], _ => rfl
    | [c], _ => rfl
    | c1 :: c2 :: t, hsafe =>
      simp only [List.nil_append, parseFracPart]
      rw [if_neg hsafe]
  · have hta := takeWhile_append_all ds rest hds h2
    simp [parseFracPart, hd, hta.1, hta.2]

theorem parseExpTail_sound {rest t r : List Char}
    (h : parseExpTail rest = some (t, r)) :
    rest = t ++ r ∧ ∃ sg d ds, t = sg ++ d :: ds ∧
      (sg = [] ∨ sg = ['+'] ∨ sg = ['-']) ∧ isDigitC d = true ∧
      ∀ x ∈ ds, isDigitC x = true := by
  match rest with
  | [] => simp [parseExpTail] at h
  | s :: rest2 =>
    simp only [parseExpTail] at h
    split at h
    · rename_i hs
      split at h
      · rename_i cs2 d rest3
        split at h
        · rename_i hd
          rw [Option.some.injEq, Prod.mk.injEq] at h
          obtain ⟨rfl, rfl⟩ := h
          refine ⟨by simp [List.takeWhile_append_dropWhile], [s], d, _, rfl, ?_, hd,
            fun x hx => List.mem_takeWhile_imp hx⟩
          rcases hs with rfl | rfl
          · exact Or.inr (Or.inl rfl)
          · exact Or.inr (Or.inr rfl)
        · exact absurd h (by simp)
      · exact absurd h (by simp)
    · split at h
      · rename_i hs
        rw [Option.some.injEq, Prod.mk.injEq] at h
        obtain ⟨rfl, rfl⟩ := h
        exact ⟨by simp [List.takeWhile_append_dropWhile], [], s, _, rfl, Or.inl rfl, hs,
          fun x hx => List.mem_takeWhile_imp hx⟩
      · exact absurd h (by simp)

theorem parseExpTail_ext {sg d : Char → Prop} : True := trivial

theorem parseExpTail_ext2 {sgl ds rest : List Char} {d : Char}
    (hsg : sgl = [] ∨ sgl = ['+'] ∨ sgl = ['-']) (hd : isDigitC d = true)
    (hds : ∀ x ∈ ds, isDigitC x = true) (h2 : headNot isDigitC rest) :
    parseExpTail ((sgl ++ d :: ds) ++ rest) = some (sgl ++ d :: ds, rest) := by
  have hta := takeWhile_append_all ds rest hds h2
  have hdpm : ¬(d = '+' ∨ d = '-') := by
    rintro (rfl | rfl) <;> simp [isDigitC] at hd
  rcases hsg with rfl | rfl | rfl <;>
    simp [parseExpTail, hdpm, hd, hta.1, hta.2]

theorem parseExpPart_sound {cs ep r : List Char}
    (h : parseExpPart cs = (ep, r)) : cs = ep ++ r ∧ ExpPartP ep := by
  match cs with
  | [] =>
    rw [parseExpPart, Prod.mk.injEq] at h
    obtain ⟨rfl, rfl⟩ := h
    exact ⟨rfl, Or.inl rfl⟩
  | e :: rest =>
    rw [parseExpPart] at h
    split at h
    · rename_i he
      rcases ht : parseExpTail rest with - | ⟨t2, r2⟩
      · rw [ht, Prod.mk.injEq] at h
        obtain ⟨rfl, rfl⟩ := h
        exact ⟨rfl, Or.inl rfl⟩
      · rw [ht, Prod.mk.injEq] at h
        obtain ⟨rfl, rfl⟩ := h
        obtain ⟨hre, sg, d, ds, rfl, hsg, hd, hds⟩ := parseExpTail_sound ht
        exact ⟨by simp [hre], Or.inr ⟨e, sg, d, ds, rfl, he, hsg, hd, hds⟩⟩
    · rw [Prod.mk.injEq] at h
      obtain ⟨rfl, rfl⟩ := h
      exact ⟨rfl, Or.inl rfl⟩

theorem parseExpPart_ext {ep rest : List Char} (h : ExpPartP ep)
    (h1 : ep = [] → headNot (fun c => c = 'e' || c = 'E') rest)
    (h2 : headNot isDigitC rest) :
    parseExpPart (ep ++ rest) = (ep, rest) := by
  rcases h with rfl | ⟨e, sg, d, ds, rfl, he, hsg, hd, hds⟩
  · have hs := h1 rfl
    match rest, hs with
    | [], _ => rfl
    | c :: t, hs =>
      simp only [headNot_cons] at hs
      simp only [List.nil_append, parseExpPart]
      rw [if_neg]
      rintro (rfl | rfl) <;> simp at hs
  · have hext := parseExpTail_ext2 hsg hd hds h2
    rw [List.cons_append, parseExpPart, if_pos he, hext]

theorem isDigitC_toNat {c : Char} (h : isDigitC c = true) :
    48 ≤ c.toNat ∧ c.toNat ≤ 57 := by
  rw [isDigitC, Bool.and_eq_true, decide_eq_true_iff, decide_eq_true_iff] at h
  obtain ⟨h1, h2⟩ := h
  rw [Char.le_def] at h1 h2
  exact ⟨h1, h2⟩

theorem isDigit19_toNat {c : Char} (h : isDigit19 c = true) :
    49 ≤ c.toNat ∧ c.toNat ≤ 57 := by
  rw [isDigit19, Bool.and_eq_true, decide_eq_true_iff, decide_eq_true_iff] at h
  obtain ⟨h1, h2⟩ := h
  rw [Char.le_def] at h1 h2
  exact ⟨h1, h2⟩

theorem toNat_range_ne {c d : Char} (h1 : 48 ≤ c.toNat) (h2 : c.toNat ≤ 57)
    (hd : d.toNat < 48 ∨ 57 < d.toNat) : c ≠ d := by
  intro heq
  subst heq
  omega

/-- A digit character heads a serialized value safely: it is not
whitespace and not a closing bracket. -/
theorem digit_goodHead {c : Char} (h : isDigitC c = true) (l : List Char) :
    goodHead (c :: l) := by
  obtain ⟨h1, h2⟩ := isDigitC_toNat h
  refine ⟨?_, toNat_range_ne h1 h2 (by decide), toNat_range_ne h1 h2 (by decide)⟩
  rw [isJsonWs]
  rw [decide_eq_false (toNat_range_ne h1 h2 (by decide) : ¬(c = ' ')),
    decide_eq_false (toNat_range_ne h1 h2 (by decide) : ¬(c = '\t')),
    decide_eq_false (toNat_range_ne h1 h2 (by decide) : ¬(c = '\n')),
    decide_eq_false (toNat_range_ne h1 h2 (by decide) : ¬(c = '\r'))]
  rfl

theorem headIs_true {cs : List Char} {x : Char} (h : headIs cs x = true) :
    cs = x :: cs.tail := by
  cases cs with
  | nil => simp at h
  | cons c t =>
    simp only [headIs_cons, decide_eq_true_iff] at h
    rw [h]
    rfl

theorem isDigit19_isDigitC {c : Char} (h : isDigit19 c = true) :
    isDigitC c = true := by
  have hn := isDigit19_toNat h
  rw [isDigitC, Bool.and_eq_true, decide_eq_true_iff, decide_eq_true_iff,
    Char.le_def, Char.le_def]
  exact ⟨show 48 ≤ c.toNat by omega, show c.toNat ≤ 57 by omega⟩

theorem IntPartP_head {ip : List Char} (h : IntPartP ip) :
    ∃ c ds, ip = c :: ds ∧ isDigitC c = true := by
  rcases h with rfl | ⟨c, ds, rfl, hc, -⟩
  · exact ⟨'0', [], rfl, by decide⟩
  · exact ⟨c, ds, rfl, isDigit19_isDigitC hc⟩

theorem parseNumTail_sound {cs t r : List Char}
    (h : parseNumTail cs = some (t, r)) :
    cs = t ++ r ∧ ∃ ip fp ep, t = ip ++ fp ++ ep ∧
      IntPartP ip ∧ FracPartP fp ∧ ExpPartP ep := by
  rw [parseNumTail] at h
  rcases hip : parseIntPart cs with - | ⟨ip, cs2⟩ <;> rw [hip] at h
  · simp at h
  · simp only [Option.some.injEq, Prod.mk.injEq] at h
    obtain ⟨rfl, rfl⟩ := h
    obtain ⟨rfl, hipP⟩ := parseIntPart_sound hip
    obtain ⟨hf1, hfpP⟩ := @parseFracPart_sound cs2 _ _ Prod.mk.eta.symm
    obtain ⟨he1, hepP⟩ :=
      @parseExpPart_sound ((parseFracPart cs2).2) _ _ Prod.mk.eta.symm
    refine ⟨?_, ip, _, _, rfl, hipP, hfpP, hepP⟩
    conv_lhs => rw [hf1, he1]
    simp [List.append_assoc]

theorem parseNumber_sound {cs l r : List Char}
    (h : parseNumber cs = some (l, r)) :
    cs = l ++ r ∧ ∃ sg ip fp ep, l = sg ++ (ip ++ fp ++ ep) ∧
      (sg = [] ∨ sg = ['-']) ∧ IntPartP ip ∧ FracPartP fp ∧ ExpPartP ep := by
  rw [parseNumber] at h
  by_cases hm : headIs cs '-' = true
  · rw [if_pos hm] at h
    rcases ht : parseNumTail cs.tail with - | ⟨t2, r2⟩ <;> rw [ht] at h
    · simp at h
    · simp only [Option.some.injEq, Prod.mk.injEq] at h
      obtain ⟨rfl, rfl⟩ := h
      obtain ⟨hteq, ip, fp, ep, rfl, hipP, hfpP, hepP⟩ := parseNumTail_sound ht
      refine ⟨?_, ['-'], ip, fp, ep, rfl, Or.inr rfl, hipP, hfpP, hepP⟩
      rw [headIs_true hm, hteq]
      rfl
  · rw [if_neg hm] at h
    obtain ⟨hteq, ip, fp, ep, rfl, hipP, hfpP, hepP⟩ := parseNumTail_sound h
    exact ⟨hteq, [], ip, fp, ep, by simp, Or.inl rfl, hipP, hfpP, hepP⟩

/-- The head-character conditions that a delimiter-led remainder satisfies,
packaged for reuse: nothing that can extend a number token. -/
theorem delim_headNot {rest : List Char} (hr : delimOk rest) :
    headNot isDigitC rest ∧ fracSafe rest ∧
      headNot (fun c => c = 'e' || c = 'E') rest ∧ headIs rest '-' = false := by
  match rest with
  | [] => exact ⟨trivial, trivial, trivial, rfl⟩
  | c :: t =>
    have hc : c = ',' ∨ c = '\n' := hr
    have h1 : isDigitC c = false := by rcases hc with rfl | rfl <;> decide
    have h3 : (decide (c = 'e') || decide (c = 'E')) = false := by
      rcases hc with rfl | rfl <;> decide
    have h4 : headIs (c :: t) '-' = false := by
      rcases hc with rfl | rfl <;> rfl
    have h2 : fracSafe (c :: t) := by
      match t with
      | [] => trivial
      | c2 :: t2 =>
        intro hcon
        rcases hc with rfl | rfl <;> exact absurd hcon.1 (by decide)
    exact ⟨h1, h2, h3, h4⟩

theorem parts_headNot_digit {fp ep rest : List Char} (hfp : FracPartP fp)
    (hep : ExpPartP ep) (hr : delimOk rest) :
    headNot isDigitC (fp ++ (ep ++ rest)) := by
  rcases hfp with rfl | ⟨d, ds, rfl, -, -⟩
  · rcases hep with rfl | ⟨e, sg, d, ds, rfl, he, -, -, -⟩
    · exact (delim_headNot hr).1
    · rcases he with rfl | rfl <;> simp [isDigitC]
  · simp [isDigitC]

theorem parseNumTail_ext {ip fp ep rest : List Char} (hip : IntPartP ip)
    (hfp : FracPartP fp) (hep : ExpPartP ep) (hr : delimOk rest) :
    parseNumTail ((ip ++ fp ++ ep) ++ rest) = some (ip ++ fp ++ ep, rest) := by
  have hd := delim_headNot hr
  have hint : parseIntPart (ip ++ (fp ++ (ep ++ rest))) =
      some (ip, fp ++ (ep ++ rest)) :=
    parseIntPart_ext hip (parts_headNot_digit hfp hep hr)
  have hfrac : parseFracPart (fp ++ (ep ++ rest)) = (fp, ep ++ rest) := by
    refine parseFracPart_ext hfp ?_ (parts_headNot_digit (Or.inl rfl) hep hr)
    intro hfpnil
    rcases hep with rfl | ⟨e, sg2, d, ds, rfl, he, -, -, -⟩
    · exact hd.2.1
    · rcases he with rfl | rfl <;>
        · simp only [List.cons_append]
          match (sg2 ++ d :: ds) ++ rest with
          | [] => trivial
          | c2 :: t2 =>
            intro hcon
            exact absurd hcon.1 (by decide)
  have hexp : parseExpPart (ep ++ rest) = (ep, rest) :=
    parseExpPart_ext hep (fun _ => hd.2.2.1) hd.1
  rw [show (ip ++ fp ++ ep) ++ rest = ip ++ (fp ++ (ep ++ rest)) by
    simp [List.append_assoc]]
  rw [parseNumTail, hint]
  simp only [hfrac, hexp]

theorem parseNumber_ext {l rest : List Char} (h : numLexOk l = true)
    (hr : delimOk rest) : parseNumber (l ++ rest) = some (l, rest) := by
  rw [numLexOk] at h
  rcases hp : parseNumber l with - | ⟨lex, r2⟩ <;> rw [hp] at h
  · simp at h
  · simp only [beq_iff_eq, Bool.and_eq_true] at h
    obtain ⟨rfl, rfl⟩ := h
    obtain ⟨hdec, sg, ip, fp, ep, hlex, hsg, hip, hfp, hep⟩ := parseNumber_sound hp
    subst hlex
    have hext := parseNumTail_ext hip hfp hep hr
    rcases hsg with rfl | rfl
    · obtain ⟨c, ds, rfl, hcdig⟩ := IntPartP_head hip
      obtain ⟨hn1, hn2⟩ := isDigitC_toNat hcdig
      have hm : ¬(headIs (([] ++ (c :: ds ++ fp ++ ep)) ++ rest) '-' = true) := by
        simp only [List.nil_append, List.cons_append, headIs_cons, decide_eq_true_iff]
        exact toNat_range_ne hn1 hn2 (by decide)
      rw [parseNumber, if_neg hm]
      simpa using hext
    · rw [show (['-'] ++ (ip ++ fp ++ ep)) ++ rest =
        '-' :: ((ip ++ fp ++ ep) ++ rest) by simp]
      rw [parseNumber, if_pos (by simp)]
      simp only [List.tail_cons, hext]
      rfl

/-! ### String escaping round trip -/

theorem hexVal_hexDigit {n : Nat} (h : n < 16) : hexVal (hexDigit n) = some n := by
  interval_cases n <;> decide

theorem parseStrCharsF_quote (f : Nat) (rest : List Char) :
    parseStrCharsF (f + 1) ('"' :: rest) = some ([], rest) := by
  simp only [parseStrCharsF]
  rw [if_pos trivial]

theorem parseStrCharsF_cons_plain (f : Nat) (c : Char) (X : List Char)
    (h1 : ¬(c = '"')) (h2 : ¬(c = '\\')) (h3 : ¬(c.toNat < 0x20)) :
    parseStrCharsF (f + 1) (c :: X) =
      match parseStrCharsF f X with
      | none => none
      | some (l, r2) => some (c :: l, r2) := by
  simp only [parseStrCharsF]
  rw [if_neg h1, if_neg h2, if_neg h3]

theorem parseStrCharsF_esc_simple (f : Nat) (L ch : Char) (X : List Char)
    (hL : ¬(L = 'u')) (hesc : parseEscSimple L = some ch) :
    parseStrCharsF (f + 1) ('\\' :: L :: X) =
      match parseStrCharsF f X with
      | none => none
      | some (l, r2) => some (ch :: l, r2) := by
  simp only [parseStrCharsF]
  rw [if_pos trivial, if_neg hL, hesc, if_neg (show ¬('\\' = '"') from by decide)]

theorem parseUEsc_control (c : Char) (h : c.toNat < 0x20) (X : List Char) :
    parseUEsc ('0' :: '0' :: hexDigit (c.toNat / 16) :: hexDigit (c.toNat % 16) :: X) =
      some (c, X) := by
  rw [parseUEsc, parseHex4]
  rw [show hexVal '0' = some 0 from by decide,
      hexVal_hexDigit (show c.toNat / 16 < 16 by omega),
      hexVal_hexDigit (show c.toNat % 16 < 16 by omega)]
  dsimp only
  rw [if_neg (by omega), if_neg (by omega)]
  rw [show ((0 * 16 + 0) * 16 + c.toNat / 16) * 16 + c.toNat % 16 = c.toNat by omega]
  rw [Char.ofNat_toNat]

theorem parseStrCharsF_u_control (f : Nat) (c : Char) (h : c.toNat < 0x20) (X : List Char) :
    parseStrCharsF (f + 1) ('\\' :: 'u' :: '0' :: '0' :: hexDigit (c.toNat / 16) ::
        hexDigit (c.toNat % 16) :: X) =
      match parseStrCharsF f X with
      | none => none
      | some (l, r2) => some (c :: l, r2) := by
  simp only [parseStrCharsF]
  rw [if_pos trivial, if_pos trivial, parseUEsc_control c h X,
    if_neg (show ¬('\\' = '"') from by decide)]

theorem parseStrCharsF_escList (f : Nat) (s rest : List Char)
    (hf : (escList s).length + 1 ≤ f) :
    parseStrCharsF f (escList s ++ ('"' :: rest)) = some (s, rest) := by
  induction s generalizing f with
  | nil =>
    obtain ⟨g, rfl⟩ : ∃ g, f = g + 1 := ⟨f - 1, by omega⟩
    rw [escList, List.nil_append, parseStrCharsF_quote]
  | cons c cs ih =>
    obtain ⟨g, rfl⟩ : ∃ g, f = g + 1 := ⟨f - 1, by omega⟩
    rw [escList] at hf ⊢
    rw [List.length_append] at hf
    rw [show (escChar c ++ escList cs) ++ ('"' :: rest) =
      escChar c ++ (escList cs ++ ('"' :: rest)) by simp]
    rw [escChar] at hf ⊢
    by_cases h1 : c = '"'
    · subst h1
      rw [if_pos rfl] at hf ⊢
      rw [show (['\\', '"'] : List Char) ++ (escList cs ++ ('"' :: rest)) =
        '\\' :: ('"' :: (escList cs ++ ('"' :: rest))) from rfl]
      rw [parseStrCharsF_esc_simple g '"' '"' _ (by decide) (by decide)]
      rw [ih g (by simp at hf; omega)]
    · rw [if_neg h1] at hf ⊢
      by_cases h2 : c = '\\'
      · subst h2
        rw [if_pos rfl] at hf ⊢
        rw [show (['\\', '\\'] : List Char) ++ (escList cs ++ ('"' :: rest)) =
          '\\' :: ('\\' :: (escList cs ++ ('"' :: rest))) from rfl]
        rw [parseStrCharsF_esc_simple g '\\' '\\' _ (by decide) (by decide)]
        rw [ih g (by simp at hf; omega)]
      · rw [if_neg h2] at hf ⊢
        by_cases h3 : c = '\x08'
        · subst h3
          rw [if_pos rfl] at hf ⊢
          rw [show (['\\', 'b'] : List Char) ++ (escList cs ++ ('"' :: rest)) =
            '\\' :: ('b' :: (escList cs ++ ('"' :: rest))) from rfl]
          rw [parseStrCharsF_esc_simple g 'b' '\x08' _ (by decide) (by decide)]
          rw [ih g (by simp at hf; omega)]
        · rw [if_neg h3] at hf ⊢
          by_cases h4 : c = '\t'
          · subst h4
            rw [if_pos rfl] at hf ⊢
            rw [show (['\\', 't'] : List Char) ++ (escList cs ++ ('"' :: rest)) =
              '\\' :: ('t' :: (escList cs ++ ('"' :: rest))) from rfl]
            rw [parseStrCharsF_esc_simple g 't' '\t' _ (by decide) (by decide)]
            rw [ih g (by simp at hf; omega)]
          · rw [if_neg h4] at hf ⊢
            by_cases h5 : c = '\n'
            · subst h5
              rw [if_pos rfl] at hf ⊢
              rw [show (['\\', 'n'] : List Char) ++ (escList cs ++ ('"' :: rest)) =
                '\\' :: ('n' :: (escList cs ++ ('"' :: rest))) from rfl]
              rw [parseStrCharsF_esc_simple g 'n' '\n' _ (by decide) (by decide)]
              rw [ih g (by simp at hf; omega)]
            · rw [if_neg h5] at hf ⊢
              by_cases h6 : c = '\x0c'
              · subst h6
                rw [if_pos rfl] at hf ⊢
                rw [show (['\\', 'f'] : List Char) ++ (escList cs ++ ('"' :: rest)) =
                  '\\' :: ('f' :: (escList cs ++ ('"' :: rest))) from rfl]
                rw [parseStrCharsF_esc_simple g 'f' '\x0c' _ (by decide) (by decide)]
                rw [ih g (by simp at hf; omega)]
              · rw [if_neg h6] at hf ⊢
                by_cases h7 : c = '\r'
                · subst h7
                  rw [if_pos rfl] at hf ⊢
                  rw [show (['\\', 'r'] : List Char) ++ (escList cs ++ ('"' :: rest)) =
                    '\\' :: ('r' :: (escList cs ++ ('"' :: rest))) from rfl]
                  rw [parseStrCharsF_esc_simple g 'r' '\r' _ (by decide) (by decide)]
                  rw [ih g (by simp at hf; omega)]
                · rw [if_neg h7] at hf ⊢
                  by_cases h8 : c.toNat < 0x20
                  · rw [if_pos h8] at hf ⊢
                    rw [show (['\\', 'u', '0', '0', hexDigit (c.toNat / 16),
                        hexDigit (c.toNat % 16)] : List Char) ++
                        (escList cs ++ ('"' :: rest)) =
                      '\\' :: ('u' :: '0' :: '0' :: hexDigit (c.toNat / 16) ::
                        hexDigit (c.toNat % 16) :: (escList cs ++ ('"' :: rest)))
                      from rfl]
                    rw [parseStrCharsF_u_control g c h8]
                    rw [ih g (by simp at hf; omega)]
                  · rw [if_neg h8] at hf ⊢
                    rw [List.cons_append, List.nil_append]
                    rw [parseStrCharsF_cons_plain g c _ h1 h2 h8]
                    rw [ih g (by simp at hf; omega)]

theorem parseStrChars_escList (s rest : List Char) :
    parseStrChars (escList s ++ ('"' :: rest)) = some (s, rest) := by
  rw [parseStrChars]
  exact parseStrCharsF_escList _ s rest
    (by rw [List.length_append, List.length_cons]; omega)

/-! ### Heads of serialized values, and fuel bounds -/

theorem numLex_head {lex : String} (hv : numLexOk lex.data = true) :
    ∃ c t, lex.data = c :: t ∧ isJsonWs c = false ∧ c ≠ ']' ∧ c ≠ '}' ∧
      (c = '-' ∨ isDigitC c = true) := by
  rw [numLexOk] at hv
  rcases hp : parseNumber lex.data with - | ⟨l2, r2⟩ <;> rw [hp] at hv
  · simp at hv
  · simp only [beq_iff_eq, Bool.and_eq_true] at hv
    obtain ⟨rfl, rfl⟩ := hv
    obtain ⟨-, sg, ip, fp, ep, hlex, hsg, hip, -, -⟩ := parseNumber_sound hp
    rcases hsg with rfl | rfl
    · obtain ⟨c, ds, hipeq, hdig⟩ := IntPartP_head hip
      obtain ⟨hg1, hg2, hg3⟩ := digit_goodHead hdig []
      exact ⟨c, ds ++ fp ++ ep, by rw [hlex, hipeq]; simp, hg1, hg2, hg3, Or.inr hdig⟩
    · exact ⟨'-', ip ++ fp ++ ep, by rw [hlex]; simp, by decide, by decide, by decide,
        Or.inl rfl⟩

theorem encJson_head (d : Nat) (v : Json) (hv : validJ v = true) :
    ∃ c t, encJson d v = c :: t ∧ isJsonWs c = false ∧ c ≠ ']' ∧ c ≠ '}' := by
  cases v with
  | null => exact ⟨'n', _, rfl, by decide, by decide, by decide⟩
  | bool b =>
    cases b
    · exact ⟨'f', _, rfl, by decide, by decide, by decide⟩
    · exact ⟨'t', _, rfl, by decide, by decide, by decide⟩
  | num lex =>
    rw [validJ] at hv
    obtain ⟨c, t, heq, hg1, hg2, hg3, -⟩ := numLex_head hv
    exact ⟨c, t, heq, hg1, hg2, hg3⟩
  | str s => exact ⟨'"', _, rfl, by decide, by decide, by decide⟩
  | arr xs =>
    cases xs
    · exact ⟨'[', _, rfl, by decide, by decide, by decide⟩
    · exact ⟨'[', _, rfl, by decide, by decide, by decide⟩
  | obj kvs =>
    cases kvs
    · exact ⟨'{', _, rfl, by decide, by decide, by decide⟩
    · exact ⟨'{', _, rfl, by decide, by decide, by decide⟩

theorem encJson_goodHead_append (d : Nat) (v : Json) (hv : validJ v = true)
    (rest : List Char) : goodHead (encJson d v ++ rest) := by
  obtain ⟨c, t, heq, hg1, hg2, hg3⟩ := encJson_head d v hv
  rw [heq, List.cons_append]
  exact ⟨hg1, hg2, hg3⟩

theorem encItems_goodHead_append (d : Nat) (x : Json) (tl : JsonList)
    (hv : validJ x = true) (rest : List Char) :
    goodHead (encItems d (JsonList.cons x tl) ++ rest) := by
  cases tl with
  | nil => exact encJson_goodHead_append d x hv rest
  | cons y tl2 =>
    rw [encItems, show (encJson d x ++ (',' :: '\n' :: ind d) ++
      encItems d (JsonList.cons y tl2)) ++ rest = encJson d x ++
        (((',' :: '\n' :: ind d) ++ encItems d (JsonList.cons y tl2)) ++ rest) by simp]
    exact encJson_goodHead_append d x hv _

theorem encMembers_goodHead_append (d : Nat) (k : String) (v : Json)
    (tl : JsonMembers) (rest : List Char) :
    goodHead (encMembers d (JsonMembers.cons k v tl) ++ rest) := by
  cases tl with
  | nil =>
    rw [encMembers, show (('"' :: escList k.data) ++ ('"' :: ':' :: ' ' :: encJson d v)) ++
      rest = '"' :: (escList k.data ++ (('"' :: ':' :: ' ' :: encJson d v) ++ rest)) by simp]
    exact ⟨by decide, by decide, by decide⟩
  | cons k2 v2 tl2 =>
    rw [encMembers]
    rw [show (('"' :: escList k.data) ++ ('"' :: ':' :: ' ' :: encJson d v) ++
      (',' :: '\n' :: ind d) ++ encMembers d (JsonMembers.cons k2 v2 tl2)) ++ rest =
      '"' :: (escList k.data ++ (('"' :: ':' :: ' ' :: encJson d v) ++
        ((',' :: '\n' :: ind d) ++ (encMembers d (JsonMembers.cons k2 v2 tl2) ++ rest)))) by
      simp]
    exact ⟨by decide, by decide, by decide⟩

theorem fuelJ_pos (v : Json) : 1 ≤ fuelJ v := by
  cases v <;> simp [fuelJ]

mutual

theorem fuelJ_le (d : Nat) (v : Json) (hv : validJ v = true) :
    fuelJ v ≤ (encJson d v).length := by
  cases v with
  | null => simp [fuelJ, encJson]
  | bool b => cases b <;> simp [fuelJ, encJson]
  | num lex =>
    rw [validJ] at hv
    obtain ⟨c, t, heq, -⟩ := numLex_head hv
    rw [fuelJ, encJson, heq]
    simp
  | str s =>
    rw [fuelJ, encJson]
    simp
  | arr xs =>
    cases xs with
    | nil => simp [fuelJ, fuelL, encJson]
    | cons x tl =>
      rw [validJ] at hv
      have := fuelL_le (d + 1) (JsonList.cons x tl) hv
      rw [fuelJ, encJson]
      simp only [List.length_append, List.length_cons]
      omega
  | obj kvs =>
    cases kvs with
    | nil => simp [fuelJ, fuelM, encJson]
    | cons k v tl =>
      rw [validJ, Bool.and_eq_true] at hv
      have := fuelM_le (d + 1) (JsonMembers.cons k v tl) hv.2
      rw [fuelJ, encJson]
      simp only [List.length_append, List.length_cons]
      omega

theorem fuelL_le (d : Nat) (xs : JsonList) (hv : validL xs = true) :
    fuelL xs ≤ (encItems d xs).length + 1 := by
  cases xs with
  | nil => simp [fuelL, encItems]
  | cons x tl =>
    rw [validL, Bool.and_eq_true] at hv
    have h1 := fuelJ_le d x hv.1
    have h0 := fuelJ_pos x
    cases tl with
    | nil =>
      rw [fuelL, encItems, fuelL]
      omega
    | cons y tl2 =>
      have h2 := fuelL_le d (JsonList.cons y tl2) hv.2
      rw [fuelL, encItems]
      simp only [List.length_append, List.length_cons]
      omega

theorem fuelM_le (d : Nat) (kvs : JsonMembers) (hv : validM kvs = true) :
    fuelM kvs ≤ (encMembers d kvs).length + 1 := by
  cases kvs with
  | nil => simp [fuelM, encMembers]
  | cons k v tl =>
    rw [validM, Bool.and_eq_true] at hv
    have h1 := fuelJ_le d v hv.1
    have h0 := fuelJ_pos v
    cases tl with
    | nil =>
      rw [fuelM, encMembers, fuelM]
      simp only [List.length_append, List.length_cons]
      omega
    | cons k2 v2 tl2 =>
      have h2 := fuelM_le d (JsonMembers.cons k2 v2 tl2) hv.2
      rw [fuelM, encMembers]
      simp only [List.length_append, List.length_cons]
      omega

end

/-! ### The parse/encode round trip -/

theorem mk_data (s : String) : String.mk s.data = s := rfl

theorem take_cons_ne {c c2 : Char} (h : ¬(c = c2)) (X Y : List Char) (n : Nat) :
    ¬((c :: X).take (n + 1) = c2 :: Y) := by
  rw [List.take_succ_cons]
  intro hc
  rw [List.cons.injEq] at hc
  exact h hc.1

theorem goodHead_headIs {l : List Char} (h : goodHead l) :
    headIs l ']' = false ∧ headIs l '}' = false := by
  cases l with
  | nil => exact h.elim
  | cons c t =>
    simp only [headIs_cons, decide_eq_false_iff_not]
    exact ⟨h.2.1, h.2.2⟩

theorem nl_ind_ws (dc : Nat) : ∀ c ∈ ('\n' :: ind dc), isJsonWs c = true := by
  intro c hc
  rcases List.mem_cons.mp hc with rfl | hc2
  · decide
  · exact ind_all_ws dc c hc2

theorem skipWs_nl_ind (dc : Nat) (X : List Char) (hX : headNot isJsonWs X) :
    skipWs ('\n' :: (ind dc ++ X)) = X := by
  have h2 := skipWs_ws_append ('\n' :: ind dc) X (nl_ind_ws dc) hX
  rw [List.cons_append] at h2
  exact h2

theorem skipWs_cons_ws (c : Char) (hc : isJsonWs c = true) (X : List Char)
    (hX : headNot isJsonWs X) : skipWs (c :: X) = X := by
  rw [skipWs, List.dropWhile_cons, if_pos hc]
  exact skipWs_not_ws X hX

mutual

theorem parseValue_enc : ∀ (v : Json) (d : Nat) (rest : List Char) (f : Nat),
    validJ v = true → delimOk rest → fuelJ v ≤ f →
    parseValue f (encJson d v ++ rest) = some (v, rest)
  | .null, d, rest, f, hv, hr, hf => by
    obtain ⟨f2, rfl⟩ : ∃ f2, f = f2 + 1 := by
      cases f with
      | zero => simp [fuelJ] at hf
      | succ f2 => exact ⟨f2, rfl⟩
    rw [encJson, parseValue]
    simp [List.take_succ_cons, List.drop_succ_cons]
  | .bool b, d, rest, f, hv, hr, hf => by
    obtain ⟨f2, rfl⟩ : ∃ f2, f = f2 + 1 := by
      cases f with
      | zero => simp [fuelJ] at hf
      | succ f2 => exact ⟨f2, rfl⟩
    cases b <;>
      · rw [encJson, parseValue]
        simp [List.take_succ_cons, List.drop_succ_cons]
  | .num lex, d, rest, f, hv, hr, hf => by
    obtain ⟨f2, rfl⟩ : ∃ f2, f = f2 + 1 := by
      cases f with
      | zero => simp [fuelJ] at hf
      | succ f2 => exact ⟨f2, rfl⟩
    rw [validJ] at hv
    obtain ⟨c, t, hdeq, hws, hbr1, hbr2, hcm⟩ := numLex_head hv
    have hrange : ∀ c2 : Char, (c2.toNat < 48 ∨ 57 < c2.toNat) →
        (c2.toNat ≠ 45) → ¬(c = c2) := by
      intro c2 hc2 hc45
      rcases hcm with rfl | hd
      · intro heq
        have h45 : c2.toNat = 45 := by rw [← heq]; rfl
        exact hc45 h45
      · exact toNat_range_ne (isDigitC_toNat hd).1 (isDigitC_toNat hd).2 hc2
    have hq : ¬(c = '"') := hrange '"' (by decide) (by decide)
    have hob : ¬(c = '{') := hrange '{' (by decide) (by decide)
    have hbk : ¬(c = '[') := hrange '[' (by decide) (by decide)
    have hn : ¬(c = 'n') := hrange 'n' (by decide) (by decide)
    have ht : ¬(c = 't') := hrange 't' (by decide) (by decide)
    have hfc : ¬(c = 'f') := hrange 'f' (by decide) (by decide)
    rw [encJson, hdeq, List.cons_append, parseValue]
    rw [if_neg (by simp [hq]), if_neg (by simp [hob]), if_neg (by simp [hbk])]
    rw [if_neg (take_cons_ne hn _ _ 3), if_neg (take_cons_ne ht _ _ 3),
      if_neg (take_cons_ne hfc _ _ 4)]
    rw [← List.cons_append, ← hdeq, parseNumber_ext hv hr]
  | .str s, d, rest, f, hv, hr, hf => by
    obtain ⟨f2, rfl⟩ : ∃ f2, f = f2 + 1 := by
      cases f with
      | zero => simp [fuelJ] at hf
      | succ f2 => exact ⟨f2, rfl⟩
    rw [encJson, show (('"' :: escList s.data) ++ ['"']) ++ rest =
      '"' :: (escList s.data ++ ('"' :: rest)) by simp]
    rw [parseValue, if_pos (by simp :
      headIs ('"' :: (escList s.data ++ ('"' :: rest))) '"' = true)]
    simp only [List.tail_cons]
    rw [parseStrChars_escList]
  | .arr .nil, d, rest, f, hv, hr, hf => by
    obtain ⟨f2, rfl⟩ : ∃ f2, f = f2 + 1 := by
      cases f with
      | zero => simp [fuelJ] at hf
      | succ f2 => exact ⟨f2, rfl⟩
    rw [encJson, show (['[', ']'] : List Char) ++ rest = '[' :: (']' :: rest) from rfl]
    rw [parseValue, if_neg (by simp), if_neg (by simp), if_pos (by simp)]
    dsimp only
    simp only [List.tail_cons]
    rw [skipWs_not_ws (']' :: rest) (by exact rfl)]
    rw [if_pos (by simp)]
    simp only [List.tail_cons]
  | .arr (.cons x tl), d, rest, f, hv, hr, hf => by
    obtain ⟨f2, rfl⟩ : ∃ f2, f = f2 + 1 := by
      cases f with
      | zero => simp [fuelJ] at hf
      | succ f2 => exact ⟨f2, rfl⟩
    rw [validJ] at hv
    have hvx : validJ x = true := by
      rw [validL, Bool.and_eq_true] at hv
      exact hv.1
    rw [encJson]
    rw [show (('[' :: '\n' :: ind (d + 1)) ++ encItems (d + 1) (JsonList.cons x tl) ++
        ('\n' :: ind d) ++ [']']) ++ rest =
      '[' :: ('\n' :: (ind (d + 1) ++ (encItems (d + 1) (JsonList.cons x tl) ++
        ('\n' :: (ind d ++ (']' :: rest)))))) by simp]
    rw [parseValue, if_neg (by simp), if_neg (by simp), if_pos (by simp)]
    dsimp only
    simp only [List.tail_cons]
    have hgh := encItems_goodHead_append (d + 1) x tl hvx
      ('\n' :: (ind d ++ (']' :: rest)))
    rw [skipWs_nl_ind (d + 1) _ (goodHead_headNot hgh)]
    rw [if_neg (by simp [(goodHead_headIs hgh).1])]
    rw [parseElems_enc x tl (d + 1) d rest f2 hv (by rw [fuelJ] at hf; omega)]
  | .obj .nil, d, rest, f, hv, hr, hf => by
    obtain ⟨f2, rfl⟩ : ∃ f2, f = f2 + 1 := by
      cases f with
      | zero => simp [fuelJ] at hf
      | succ f2 => exact ⟨f2, rfl⟩
    rw [encJson, show (['{', '}'] : List Char) ++ rest = '{' :: ('}' :: rest) from rfl]
    rw [parseValue, if_neg (by simp), if_pos (by simp)]
    dsimp only
    simp only [List.tail_cons]
    rw [skipWs_not_ws ('}' :: rest) (by exact rfl)]
    rw [if_pos (by simp)]
    simp only [List.tail_cons]
  | .obj (.cons k v tl), d, rest, f, hv, hr, hf => by
    obtain ⟨f2, rfl⟩ : ∃ f2, f = f2 + 1 := by
      cases f with
      | zero => simp [fuelJ] at hf
      | succ f2 => exact ⟨f2, rfl⟩
    rw [validJ, Bool.and_eq_true] at hv
    rw [encJson]
    rw [show (('{' :: '\n' :: ind (d + 1)) ++
        encMembers (d + 1) (JsonMembers.cons k v tl) ++ ('\n' :: ind d) ++ ['}']) ++ rest =
      '{' :: ('\n' :: (ind (d + 1) ++ (encMembers (d + 1) (JsonMembers.cons k v tl) ++
        ('\n' :: (ind d ++ ('}' :: rest)))))) by simp]
    rw [parseValue, if_neg (by simp), if_pos (by simp)]
    dsimp only
    simp only [List.tail_cons]
    have hgh := encMembers_goodHead_append (d + 1) k v tl
      ('\n' :: (ind d ++ ('}' :: rest)))
    rw [skipWs_nl_ind (d + 1) _ (goodHead_headNot hgh)]
    rw [if_neg (by simp [(goodHead_headIs hgh).2])]
    rw [parseMembers_enc k v tl (d + 1) d rest f2 hv.2 (by rw [fuelJ] at hf; omega)]
termination_by v d rest f hv hr hf => sizeOf v
decreasing_by all_goals (simp; omega)

theorem parseElems_enc : ∀ (x : Json) (tl : JsonList) (d dc : Nat) (rest : List Char)
    (f : Nat), validL (JsonList.cons x tl) = true → fuelL (JsonList.cons x tl) ≤ f →
    parseElems f (encItems d (JsonList.cons x tl) ++
      ('\n' :: (ind dc ++ (']' :: rest)))) = some (JsonList.cons x tl, rest)
  | x, .nil, d, dc, rest, f, hv, hf => by
    obtain ⟨f2, rfl⟩ : ∃ f2, f = f2 + 1 := by
      rw [fuelL] at hf
      cases f with
      | zero => omega
      | succ f2 => exact ⟨f2, rfl⟩
    rw [validL, Bool.and_eq_true] at hv
    rw [fuelL] at hf
    have hm1 := Nat.le_max_left (fuelJ x) (fuelL JsonList.nil)
    rw [encItems, parseElems]
    rw [parseValue_enc x d _ f2 hv.1 (by simp) (by omega)]
    dsimp only
    rw [skipWs_nl_ind dc (']' :: rest) (by exact rfl)]
    rw [if_neg (by simp), if_pos (by simp)]
    simp only [List.tail_cons]
  | x, .cons y tl2, d, dc, rest, f, hv, hf => by
    obtain ⟨f2, rfl⟩ : ∃ f2, f = f2 + 1 := by
      rw [fuelL] at hf
      cases f with
      | zero => omega
      | succ f2 => exact ⟨f2, rfl⟩
    rw [validL, Bool.and_eq_true] at hv
    rw [fuelL] at hf
    have hm1 := Nat.le_max_left (fuelJ x) (fuelL (JsonList.cons y tl2))
    have hm2 := Nat.le_max_right (fuelJ x) (fuelL (JsonList.cons y tl2))
    rw [encItems]
    rw [show (encJson d x ++ (',' :: '\n' :: ind d) ++
        encItems d (JsonList.cons y tl2)) ++ ('\n' :: (ind dc ++ (']' :: rest))) =
      encJson d x ++ (',' :: ('\n' :: (ind d ++ (encItems d (JsonList.cons y tl2) ++
        ('\n' :: (ind dc ++ (']' :: rest))))))) by simp]
    rw [parseElems]
    rw [parseValue_enc x d _ f2 hv.1 (by simp) (by omega)]
    dsimp only
    rw [skipWs_not_ws _ (by exact rfl : headNot isJsonWs (',' :: ('\n' ::
      (ind d ++ (encItems d (JsonList.cons y tl2) ++
        ('\n' :: (ind dc ++ (']' :: rest))))))))]
    rw [if_pos (by simp)]
    simp only [List.tail_cons]
    have hvy : validJ y = true := by
      rw [validL, Bool.and_eq_true] at hv
      exact hv.2.1
    have hgh := encItems_goodHead_append d y tl2 hvy ('\n' :: (ind dc ++ (']' :: rest)))
    rw [skipWs_nl_ind d _ (goodHead_headNot hgh)]
    rw [parseElems_enc y tl2 d dc rest f2 hv.2 (by omega)]
termination_by x tl d dc rest f hv hf => sizeOf x + sizeOf tl + 1
decreasing_by all_goals (simp; omega)

theorem parseMembers_enc : ∀ (k : String) (v : Json) (tl : JsonMembers) (d dc : Nat)
    (rest : List Char) (f : Nat), validM (JsonMembers.cons k v tl) = true →
    fuelM (JsonMembers.cons k v tl) ≤ f →
    parseMembers f (encMembers d (JsonMembers.cons k v tl) ++
      ('\n' :: (ind dc ++ ('}' :: rest)))) = some (JsonMembers.cons k v tl, rest)
  | k, v, .nil, d, dc, rest, f, hv, hf => by
    obtain ⟨f2, rfl⟩ : ∃ f2, f = f2 + 1 := by
      rw [fuelM] at hf
      cases f with
      | zero => omega
      | succ f2 => exact ⟨f2, rfl⟩
    rw [validM, Bool.and_eq_true] at hv
    rw [fuelM] at hf
    have hm1 := Nat.le_max_left (fuelJ v) (fuelM JsonMembers.nil)
    rw [encMembers]
    rw [show (('"' :: escList k.data) ++ ('"' :: ':' :: ' ' :: encJson d v)) ++
        ('\n' :: (ind dc ++ ('}' :: rest))) =
      '"' :: (escList k.data ++ ('"' :: (':' :: (' ' :: (encJson d v ++
        ('\n' :: (ind dc ++ ('}' :: rest)))))))) by simp]
    rw [parseMembers, if_pos (by simp)]
    dsimp only
    simp only [List.tail_cons]
    rw [parseStrChars_escList]
    dsimp only
    rw [skipWs_not_ws _ (by exact rfl : headNot isJsonWs (':' :: (' ' :: (encJson d v ++
      ('\n' :: (ind dc ++ ('}' :: rest)))))))]
    rw [if_pos (by simp)]
    simp only [List.tail_cons]
    rw [skipWs_cons_ws ' ' (by decide) _
      (goodHead_headNot (encJson_goodHead_append d v hv.1 _))]
    rw [parseValue_enc v d _ f2 hv.1 (by simp) (by omega)]
    dsimp only
    rw [skipWs_nl_ind dc ('}' :: rest) (by exact rfl)]
    rw [if_neg (by simp), if_pos (by simp)]
    simp only [List.tail_cons, mk_data]
  | k, v, .cons k2 v2 tl2, d, dc, rest, f, hv, hf => by
    obtain ⟨f2, rfl⟩ : ∃ f2, f = f2 + 1 := by
      rw [fuelM] at hf
      cases f with
      | zero => omega
      | succ f2 => exact ⟨f2, rfl⟩
    rw [validM, Bool.and_eq_true] at hv
    rw [fuelM] at hf
    have hm1 := Nat.le_max_left (fuelJ v) (fuelM (JsonMembers.cons k2 v2 tl2))
    have hm2 := Nat.le_max_right (fuelJ v) (fuelM (JsonMembers.cons k2 v2 tl2))
    rw [encMembers]
    rw [show (('"' :: escList k.data) ++ ('"' :: ':' :: ' ' :: encJson d v) ++
        (',' :: '\n' :: ind d) ++ encMembers d (JsonMembers.cons k2 v2 tl2)) ++
        ('\n' :: (ind dc ++ ('}' :: rest))) =
      '"' :: (escList k.data ++ ('"' :: (':' :: (' ' :: (encJson d v ++
        (',' :: ('\n' :: (ind d ++ (encMembers d (JsonMembers.cons k2 v2 tl2) ++
          ('\n' :: (ind dc ++ ('}' :: rest)))))))))))) by simp]
    rw [parseMembers, if_pos (by simp)]
    dsimp only
    simp only [List.tail_cons]
    rw [parseStrChars_escList]
    dsimp only
    rw [skipWs_not_ws _ (by exact rfl : headNot isJsonWs (':' :: (' ' :: (encJson d v ++
      (',' :: ('\n' :: (ind d ++ (encMembers d (JsonMembers.cons k2 v2 tl2) ++
        ('\n' :: (ind dc ++ ('}' :: rest)))))))))))]
    rw [if_pos (by simp)]
    simp only [List.tail_cons]
    rw [skipWs_cons_ws ' ' (by decide) _
      (goodHead_headNot (encJson_goodHead_append d v hv.1 _))]
    rw [parseValue_enc v d _ f2 hv.1 (by simp) (by omega)]
    dsimp only
    rw [skipWs_not_ws _ (by exact rfl : headNot isJsonWs (',' :: ('\n' ::
      (ind d ++ (encMembers d (JsonMembers.cons k2 v2 tl2) ++
        ('\n' :: (ind dc ++ ('}' :: rest))))))))]
    rw [if_pos (by simp)]
    simp only [List.tail_cons]
    have hgh := encMembers_goodHead_append d k2 v2 tl2 ('\n' :: (ind dc ++ ('}' :: rest)))
    rw [skipWs_nl_ind d _ (goodHead_headNot hgh)]
    rw [parseMembers_enc k2 v2 tl2 d dc rest f2 hv.2 (by omega)]
termination_by k v tl d dc rest f hv hf => sizeOf v + sizeOf tl + 1
decreasing_by all_goals (simp; omega)

end

/-- The printer/parser round trip: `json.loads(json.dumps(v, ensure_ascii=False,
indent=2))` recovers `v` for every valid JSON value. -/
theorem loads_dumps (v : Json) (hv : validJ v = true) : loads (dumps v) = .ok v := by
  rw [dumps, loads]
  obtain ⟨c, t, heq, hws, -, -⟩ := encJson_head 0 v hv
  have hskip : skipWs (String.mk (encJson 0 v)).data = encJson 0 v := by
    show skipWs (encJson 0 v) = _
    refine skipWs_not_ws _ ?_
    rw [heq]
    exact hws
  rw [hskip]
  have hlen : (String.mk (encJson 0 v)).length = (encJson 0 v).length := rfl
  rw [hlen]
  have hpv := parseValue_enc v 0 [] ((encJson 0 v).length + 1) hv trivial
    (le_trans (fuelJ_le 0 v hv) (by omega))
  rw [List.append_nil] at hpv
  rw [hpv]
  dsimp only
  rw [if_pos (show skipWs ([] : List Char) = [] from rfl)]

/-! ### UTF-8: valid sequences decode to their text -/

theorem utf8DecodeAuxF_encodeChar (f : Nat) (repl : Bool) (c : Char) (rest : List Nat) :
    utf8DecodeAuxF (f + 1) repl (utf8EncodeChar c ++ rest) =
      c :: utf8DecodeAuxF f repl rest := by
  have hval : c.toNat < 0xd800 ∨ (0xdfff < c.toNat ∧ c.toNat < 0x110000) := c.valid
  rw [utf8EncodeChar]
  by_cases h1 : c.toNat < 0x80
  · rw [if_pos h1, show ([c.toNat] ++ rest) = c.toNat :: rest from rfl]
    simp only [utf8DecodeAuxF]
    rw [if_pos h1, Char.ofNat_toNat]
  · rw [if_neg h1]
    by_cases h2 : c.toNat < 0x800
    · rw [if_pos h2]
      rw [show ([0xC0 + c.toNat / 64, 0x80 + c.toNat % 64] ++ rest) =
        (0xC0 + c.toNat / 64) :: ((0x80 + c.toNat % 64) :: rest) from rfl]
      simp only [utf8DecodeAuxF]
      rw [if_neg (by omega), if_neg (by omega), if_pos (by omega)]
      rw [if_pos (by rw [utf8Cont, Bool.and_eq_true, decide_eq_true_iff,
        decide_eq_true_iff]; omega)]
      rw [show (0xC0 + c.toNat / 64 - 0xC0) * 64 + (0x80 + c.toNat % 64 - 0x80) =
        c.toNat by omega, Char.ofNat_toNat]
    · rw [if_neg h2]
      by_cases h3 : c.toNat < 0x10000
      · rw [if_pos h3]
        rw [show ([0xE0 + c.toNat / 4096, 0x80 + (c.toNat / 64) % 64,
            0x80 + c.toNat % 64] ++ rest) =
          (0xE0 + c.toNat / 4096) :: ((0x80 + (c.toNat / 64) % 64) ::
            ((0x80 + c.toNat % 64) :: rest)) from rfl]
        simp only [utf8DecodeAuxF]
        rw [if_neg (by omega), if_neg (by omega), if_neg (by omega), if_pos (by omega)]
        have hcond : (if 0xE0 + c.toNat / 4096 = 0xE0 then
            decide (0xA0 ≤ 0x80 + (c.toNat / 64) % 64) &&
              decide (0x80 + (c.toNat / 64) % 64 ≤ 0xBF)
          else if 0xE0 + c.toNat / 4096 = 0xED then
            decide (0x80 ≤ 0x80 + (c.toNat / 64) % 64) &&
              decide (0x80 + (c.toNat / 64) % 64 ≤ 0x9F)
          else utf8Cont (0x80 + (c.toNat / 64) % 64)) = true := by
          by_cases h0 : 0xE0 + c.toNat / 4096 = 0xE0
          · rw [if_pos h0]
            rw [Bool.and_eq_true, decide_eq_true_iff, decide_eq_true_iff]
            omega
          · rw [if_neg h0]
            by_cases hD : 0xE0 + c.toNat / 4096 = 0xED
            · rw [if_pos hD]
              rw [Bool.and_eq_true, decide_eq_true_iff, decide_eq_true_iff]
              omega
            · rw [if_neg hD]
              rw [utf8Cont, Bool.and_eq_true, decide_eq_true_iff, decide_eq_true_iff]
              omega
        rw [if_pos hcond]
        rw [if_pos (by rw [utf8Cont, Bool.and_eq_true, decide_eq_true_iff,
          decide_eq_true_iff]; omega)]
        rw [show (0xE0 + c.toNat / 4096 - 0xE0) * 4096 +
          (0x80 + (c.toNat / 64) % 64 - 0x80) * 64 + (0x80 + c.toNat % 64 - 0x80) =
          c.toNat by omega, Char.ofNat_toNat]
      · rw [if_neg h3]
        rw [show ([0xF0 + c.toNat / 0x40000, 0x80 + (c.toNat / 4096) % 64,
            0x80 + (c.toNat / 64) % 64, 0x80 + c.toNat % 64] ++ rest) =
          (0xF0 + c.toNat / 0x40000) :: ((0x80 + (c.toNat / 4096) % 64) ::
            ((0x80 + (c.toNat / 64) % 64) ::
              ((0x80 + c.toNat % 64) :: rest))) from rfl]
        simp only [utf8DecodeAuxF]
        rw [if_neg (by omega), if_neg (by omega), if_neg (by omega),
          if_neg (by omega), if_pos (by omega)]
        have hcond : (if 0xF0 + c.toNat / 0x40000 = 0xF0 then
            decide (0x90 ≤ 0x80 + (c.toNat / 4096) % 64) &&
              decide (0x80 + (c.toNat / 4096) % 64 ≤ 0xBF)
          else if 0xF0 + c.toNat / 0x40000 = 0xF4 then
            decide (0x80 ≤ 0x80 + (c.toNat / 4096) % 64) &&
              decide (0x80 + (c.toNat / 4096) % 64 ≤ 0x8F)
          else utf8Cont (0x80 + (c.toNat / 4096) % 64)) = true := by
          by_cases h0 : 0xF0 + c.toNat / 0x40000 = 0xF0
          · rw [if_pos h0]
            rw [Bool.and_eq_true, decide_eq_true_iff, decide_eq_true_iff]
            omega
          · rw [if_neg h0]
            by_cases hD : 0xF0 + c.toNat / 0x40000 = 0xF4
            · rw [if_pos hD]
              rw [Bool.and_eq_true, decide_eq_true_iff, decide_eq_true_iff]
              omega
            · rw [if_neg hD]
              rw [utf8Cont, Bool.and_eq_true, decide_eq_true_iff, decide_eq_true_iff]
              omega
        rw [if_pos hcond]
        rw [if_pos (by rw [utf8Cont, Bool.and_eq_true, decide_eq_true_iff,
          decide_eq_true_iff]; omega)]
        rw [if_pos (by rw [utf8Cont, Bool.and_eq_true, decide_eq_true_iff,
          decide_eq_true_iff]; omega)]
        rw [show (0xF0 + c.toNat / 0x40000 - 0xF0) * 0x40000 +
          (0x80 + (c.toNat / 4096) % 64 - 0x80) * 4096 +
          (0x80 + (c.toNat / 64) % 64 - 0x80) * 64 + (0x80 + c.toNat % 64 - 0x80) =
          c.toNat by omega, Char.ofNat_toNat]

theorem utf8DecodeAuxF_encode (f : Nat) (repl : Bool) (s : List Char)
    (hf : s.length ≤ f) :
    utf8DecodeAuxF f repl (utf8Encode s) = s := by
  induction s generalizing f with
  | nil =>
    rw [show utf8Encode [] = [] from rfl, utf8DecodeAuxF]
  | cons c cs ih =>
    obtain ⟨g, rfl⟩ : ∃ g, f = g + 1 := ⟨f - 1, by simp at hf; omega⟩
    rw [utf8Encode, utf8DecodeAuxF_encodeChar g, ih g (by simp at hf; omega)]

theorem utf8Encode_length_ge (s : List Char) : s.length ≤ (utf8Encode s).length := by
  induction s with
  | nil => simp [utf8Encode]
  | cons c cs ih =>
    rw [utf8Encode, List.length_append, List.length_cons]
    have h : 1 ≤ (utf8EncodeChar c).length := by
      simp only [utf8EncodeChar]
      split
      · simp
      · split
        · simp
        · split
          · simp
          · simp
    omega

theorem utf8DecodeAux_encode (repl : Bool) (s : List Char) :
    utf8DecodeAux repl (utf8Encode s) = s := by
  rw [utf8DecodeAux]
  exact utf8DecodeAuxF_encode _ repl s (utf8Encode_length_ge s)

/-! ## The claims -/

/-- C1 (amended): for every input whose decoded text is valid JSON with a
non-null top-level value, `_try_parse_mt5_json` returns the strict-parse
value as its payload with no repair text and no error.  (The original
claim also covered the document `null`; see the counterexample: Python's
`json.loads` returns `None` for it, which is the same value the callers
use as the failure sentinel, so no Success outcome is produced.) -/
theorem C1_parse_valid_json (raw_text : String) (v : Json)
    (h : loads raw_text = .ok v) (hnull : ¬(v = .null)) :
    try_parse_mt5_json raw_text = (some v, none, none) := by
  rw [try_parse_mt5_json, h]
  dsimp only
  rw [pyNone, if_neg hnull]

/-- C1 witness: a concrete valid JSON object input parses to Success with
the strict-parse value and no repair text. -/
theorem C1_parse_valid_json_witness :
    try_parse_mt5_json "\x7b\"a\":1\x7d" =
      (some (.obj (.cons "a" (.num "1") .nil)), none, none) :=
  C1_parse_valid_json "\x7b\"a\":1\x7d" (.obj (.cons "a" (.num "1") .nil))
    (by decide) (by decide)

/-- C1 counterexample: the decoded text `null` is valid JSON (the
reference strict parse succeeds with the JSON null value), yet
`_try_parse_mt5_json` returns the `None` payload — indistinguishable from
its failure sentinel — and the webhook handler consequently responds 400
`invalid_json` (with `error` the text `None`) and stores the empty
mapping. -/
theorem C1_counterexample :
    loads "null" = .ok .null ∧
    try_parse_mt5_json "null" = (none, none, none) ∧
    webhook_from_mt5 false [110, 117, 108, 108] (fun _ => none) =
      .ok (⟨400, .invalidJson "None" "null" none⟩,
        write_result_file (.obj .nil) (fun _ => none)) := by
  refine ⟨by decide, by decide, ?_⟩
  rw [webhook_from_mt5]
  rw [show (try_parse_mt5_json (utf8_decode_ignore [110, 117, 108, 108])).1 = none
    from by decide]
  rw [show pyStr (try_parse_mt5_json (utf8_decode_ignore [110, 117, 108, 108])).2.2 =
    "None" from by decide]
  rw [show repairedField (try_parse_mt5_json
    (utf8_decode_ignore [110, 117, 108, 108])).2.1
    (utf8_decode_ignore [110, 117, 108, 108]) = none from by decide]
  rw [show utf8_decode_ignore [110, 117, 108, 108] = "null" from by decide]
  rfl

/-- C2: for the input text
`{"bar_time":2025.12.12 04:05:00,"price":1.23,}` the parser returns
Success whose value maps `bar_time` to the string
`"2025.12.12 04:05:00"` and `price` to the number `1.23`, with no
trailing-comma artifact (the repaired text has the datetime quoted and
the trailing comma removed). -/
theorem C2_datetime_trailing_comma :
    try_parse_mt5_json "\x7b\"bar_time\":2025.12.12 04:05:00,\"price\":1.23,\x7d" =
      (some (.obj (.cons "bar_time" (.str "2025.12.12 04:05:00")
          (.cons "price" (.num "1.23") .nil))),
        some "\x7b\"bar_time\":\"2025.12.12 04:05:00\",\"price\":1.23\x7d", none) := by
  decide

/-- C3: `_write_result_file` serializes the value as indented JSON text,
writes it to the temporary path (distinct from the canonical path), and
only the final replace step mutates the canonical path, which afterwards
holds exactly the serialized text. -/
theorem C3_atomic_write (data : Json) (fs : Fs) :
    ¬(tmp_path = result_path) ∧
    write_ops data = [FsOp.writeText tmp_path (dumps data),
      FsOp.replace tmp_path result_path] ∧
    applyOp fs (FsOp.writeText tmp_path (dumps data)) result_path = fs result_path ∧
    write_result_file data fs result_path = some (dumps data) := by
  refine ⟨by decide, rfl, ?_, ?_⟩
  · show (if result_path = tmp_path then some (dumps data) else fs result_path)
        = fs result_path
    exact if_neg (by decide)
  · rw [write_result_file, write_ops]
    rw [show List.foldl applyOp fs [FsOp.writeText tmp_path (dumps data),
      FsOp.replace tmp_path result_path] =
      applyOp (applyOp fs (FsOp.writeText tmp_path (dumps data)))
        (FsOp.replace tmp_path result_path) from rfl]
    rw [applyOp, applyOp]
    exact if_pos rfl

/-- C4: the write/read round trip — writing any valid JSON value through
the snapshot store and reading it back through the result handler yields
a 200 response carrying a value structurally equal to the one written
(numbers are modelled as decimal lexemes, so the equality is exact). -/
theorem C4_round_trip (v : Json) (fs : Fs) (hv : validJ v = true) :
    get_last_result (write_result_file v fs) = ⟨200, .resultData v⟩ := by
  have hw : write_result_file v fs result_path = some (dumps v) :=
    (C3_atomic_write v fs).2.2.2
  rw [get_last_result, hw]
  dsimp only
  rw [loads_dumps v hv]

/-- C4 witness: a concrete object round-trips through write and read. -/
theorem C4_round_trip_witness :
    get_last_result (write_result_file
      (.obj (.cons "price" (.num "1.23") .nil)) (fun _ => none)) =
      ⟨200, .resultData (.obj (.cons "price" (.num "1.23") .nil))⟩ :=
  C4_round_trip (.obj (.cons "price" (.num "1.23") .nil)) (fun _ => none) (by decide)

/-- C5: reading the snapshot has exactly three outcomes — 404 not_found
when no snapshot file exists, 500 invalid_result_json carrying the parse
error when the contents fail to parse, and 200 with the parsed value
otherwise. -/
theorem C5_read_outcomes (fs : Fs) :
    (fs result_path = none →
      get_last_result fs = ⟨404, .notFound "result.json does not exist yet"⟩) ∧
    (∀ raw e, fs result_path = some raw → loads raw = .error e →
      get_last_result fs = ⟨500, .invalidResultJson e⟩) ∧
    (∀ raw v, fs result_path = some raw → loads raw = .ok v →
      get_last_result fs = ⟨200, .resultData v⟩) := by
  refine ⟨fun h => ?_, fun raw e h1 h2 => ?_, fun raw v h1 h2 => ?_⟩
  · rw [get_last_result, h]
  · rw [get_last_result, h1]
    dsimp only
    rw [h2]
  · rw [get_last_result, h1]
    dsimp only
    rw [h2]

/-- C5 witness: on the empty file system the read returns 404 not_found;
on a corrupt snapshot it returns 500 invalid_result_json. -/
theorem C5_read_outcomes_witness :
    get_last_result (fun _ => none) =
      ⟨404, .notFound "result.json does not exist yet"⟩ ∧
    get_last_result (fun _ => some "\x7bnot json") =
      ⟨500, .invalidResultJson "Expecting value"⟩ :=
  ⟨(C5_read_outcomes (fun _ => none)).1 rfl,
    (C5_read_outcomes (fun _ => some "\x7bnot json")).2.1 "\x7bnot json"
      "Expecting value" rfl (by decide)⟩

/-- C6: a webhook invocation whose payload fails to parse (even after
repair) stores the empty mapping as the new snapshot — regardless of the
previous file-system state — and responds 400 with the invalid_json
failure body. -/
theorem C6_invalid_payload_stores_empty (raw_body : List Nat) (fs : Fs)
    (h : (try_parse_mt5_json (utf8_decode_ignore raw_body)).1 = none) :
    webhook_from_mt5 false raw_body fs =
      .ok (⟨400, .invalidJson
          (pyStr (try_parse_mt5_json (utf8_decode_ignore raw_body)).2.2)
          (utf8_decode_ignore raw_body)
          (repairedField (try_parse_mt5_json (utf8_decode_ignore raw_body)).2.1
            (utf8_decode_ignore raw_body))⟩,
        write_result_file (.obj .nil) fs) ∧
    write_result_file (.obj .nil) fs result_path = some (dumps (Json.obj .nil)) ∧
    dumps (Json.obj .nil) = "\x7b\x7d" := by
  refine ⟨?_, (C3_atomic_write (.obj .nil) fs).2.2.2, by decide⟩
  rw [webhook_from_mt5]
  rw [h]
  rfl

/-- C6 witness: the unrepairable body consisting of the single byte of
an opening brace stores the empty mapping and yields the 400 body. -/
theorem C6_invalid_payload_stores_empty_witness :
    webhook_from_mt5 false [123] (fun _ => none) =
      .ok (⟨400, .invalidJson
          (pyStr (try_parse_mt5_json (utf8_decode_ignore [123])).2.2)
          (utf8_decode_ignore [123])
          (repairedField (try_parse_mt5_json (utf8_decode_ignore [123])).2.1
            (utf8_decode_ignore [123]))⟩,
        write_result_file (.obj .nil) (fun _ => none)) ∧
    write_result_file (.obj .nil) (fun _ => none) result_path =
      some (dumps (Json.obj .nil)) ∧
    dumps (Json.obj .nil) = "\x7b\x7d" :=
  C6_invalid_payload_stores_empty [123] (fun _ => none) (by decide)

/-- C7 (amended): in the repair pass, bare `NaN` and `Infinity` tokens are
replaced with the JSON null literal, and a field holding one of them
parses to null in the Success value; but a bare `-Infinity` becomes
`-null` — the `Infinity` substitution runs before the `-Infinity` one and
keeps the minus sign — so a field holding `-Infinity` makes the repaired
text unparseable and the outcome is Failure, not a null field. -/
theorem C7_nonfinite_substitution :
    try_parse_mt5_json "\x7b\"a\":NaN,\x7d" =
      (some (.obj (.cons "a" .null .nil)), some "\x7b\"a\":null\x7d", none) ∧
    try_parse_mt5_json "\x7b\"a\":Infinity,\x7d" =
      (some (.obj (.cons "a" .null .nil)), some "\x7b\"a\":null\x7d", none) ∧
    applyRepairs "\x7b\"a\":-Infinity,\x7d" = "\x7b\"a\":-null\x7d" := by
  decide

/-- C7 counterexample: for the input whose field value is the bare token
`-Infinity` (with a trailing comma forcing the repair path), the repair
produces `-null`, the second parse fails, and the outcome is Failure —
not a Success value with a null field as the claim states. -/
theorem C7_counterexample :
    try_parse_mt5_json "\x7b\"a\":-Infinity,\x7d" =
      (none, some "\x7b\"a\":-null\x7d",
        some "Expecting value | after_repair: Expecting value") := by
  decide

/-- C8 (amended): when persisting the snapshot fails with an I/O error,
the exception propagates out of the handler (there is no try/except
around the await): no response carrying the parse outcome is returned,
and the write is not retried — the handler run ends with the raised
error for every input, parseable or not. -/
theorem C8_write_failure_aborts (raw_body : List Nat) (fs : Fs) :
    webhook_from_mt5 true raw_body fs = .error () := by
  rw [webhook_from_mt5]
  rcases (try_parse_mt5_json (utf8_decode_ignore raw_body)).1 with - | p <;> rfl

/-- C8 witness: the abort also happens on a concrete well-formed payload. -/
theorem C8_write_failure_aborts_witness :
    webhook_from_mt5 true [123, 34, 97, 34, 58, 49, 125] (fun _ => none) = .error () :=
  C8_write_failure_aborts [123, 34, 97, 34, 58, 49, 125] (fun _ => none)

/-- C8 counterexample: with a failing persist step and a payload that
parses fine (`{"a":1}` as bytes), the handler does not return the ok
response that the claim promises — the run ends with the propagated
exception although the parse outcome was Success. -/
theorem C8_counterexample :
    (try_parse_mt5_json (utf8_decode_ignore [123, 34, 97, 34, 58, 49, 125])).1 =
      some (.obj (.cons "a" (.num "1") .nil)) ∧
    webhook_from_mt5 true [123, 34, 97, 34, 58, 49, 125] (fun _ => none) =
      .error () := by
  refine ⟨by decide, ?_⟩
  rw [webhook_from_mt5]
  rw [show (try_parse_mt5_json
    (utf8_decode_ignore [123, 34, 97, 34, 58, 49, 125])).1 =
    some (.obj (.cons "a" (.num "1") .nil)) from by decide]
  rfl

/-- C9 (amended): decoding the raw payload bytes as UTF-8 never fails and
every valid UTF-8 byte sequence decodes to its text, but ill-formed byte
sequences are dropped (`errors="ignore"`), not substituted with a
replacement marker. -/
theorem C9_decode_ignore :
    (∀ s : List Char, utf8_decode_ignore (utf8Encode s) = String.mk s) ∧
    utf8_decode_ignore [65, 255, 66] = "AB" := by
  refine ⟨fun s => ?_, by decide⟩
  rw [utf8_decode_ignore, utf8DecodeAux_encode]

/-- C9 counterexample: on the bytes 0x41 0xFF 0x42 the code's
`errors="ignore"` decode drops the invalid byte and yields the two-byte
text, whereas the replacement-marker decode of the spec would insert
U+FFFD; the two results differ. -/
theorem C9_counterexample :
    utf8_decode_ignore [65, 255, 66] = "AB" ∧
    utf8_decode_replace [65, 255, 66] = String.mk ['A', '�', 'B'] ∧
    ¬(("AB" : String) = String.mk ['A', '�', 'B']) := by
  decide

/-- C10: the repair substitutions ignore string-literal boundaries — for
the input `{"a":"NaN","b":1,}` (which needs repair because of the
trailing comma), the `NaN` inside the quoted string literal is replaced
as well, so the Success value holds the string "null" where the original
text had the string "NaN". -/
theorem C10_repair_inside_string :
    loads "\x7b\"a\":\"NaN\",\"b\":1,\x7d" = .error "Expecting value" ∧
    try_parse_mt5_json "\x7b\"a\":\"NaN\",\"b\":1,\x7d" =
      (some (.obj (.cons "a" (.str "null") (.cons "b" (.num "1") .nil))),
        some "\x7b\"a\":\"null\",\"b\":1\x7d", none) ∧
    ¬(("null" : String) = "NaN") := by
  decide

end Server
